import Mathlib

/-!
Verification of the algebraic factorization engine (kernel extraction,
rectangle covering, profit scoring, rectangle application, fallback
common-cube extraction and the synthesis driver).

The embedding follows the Python sources:
  src/division.py, src/kernel.py, src/matrix.py, src/rectangles.py,
  src/factor.py, src/synthesize.py, src/parser_sop.py

Data model (mirroring the source):
  Literal = str                     -> Literal := String
  Cube    = FrozenSet[Literal]      -> Cube := Finset Literal
  Expr    = Set[Cube]               -> Expr := Finset Cube
Python sets are value types compared by membership; Finset is the exact
counterpart.  Wherever Python calls sorted(...) on set contents we sort the
underlying multiset with an insertion sort through Quot.lift (legitimate
because sorting by a strict total order is permutation-invariant), keeping
every definition executable and kernel-reducible.
-/

abbrev Literal := String

abbrev Cube := Finset Literal

abbrev Expr := Finset Cube

/-! ### Boolean strict-order comparators

Python compares strings, tuples of strings, and tuples of tuples
lexicographically.  We mirror those comparisons with executable Bool-valued
strict-less-than functions and prove they are strict total orders.
-/

/-- Strict-less-than on characters via code points (Python string order on
one-character strings agrees with code-point order). -/
def charLtb (a b : Char) : Bool := Nat.blt a.toNat b.toNat

/-- Lexicographic strict-less-than on lists, given one on elements
(Python tuple/string comparison). -/
def listLtb (ltb : α → α → Bool) [DecidableEq α] : List α → List α → Bool
  | [], [] => false
  | [], _ :: _ => true
  | _ :: _, [] => false
  | a :: as, b :: bs => ltb a b || (decide (a = b) && listLtb ltb as bs)

/-- Strict-less-than on strings: lexicographic on the character data
(Python string comparison). -/
def strLtb (a b : String) : Bool := listLtb charLtb a.data b.data

/-- A Bool-valued comparator that is a strict total order. -/
structure StrictOrd (ltb : α → α → Bool) : Prop where
  asymm : ∀ a b, ltb a b = true → ltb b a = false
  trans : ∀ a b c, ltb a b = true → ltb b c = true → ltb a c = true
  conn : ∀ a b, ltb a b = false → ltb b a = false → a = b

theorem StrictOrd.irrefl {ltb : α → α → Bool} (h : StrictOrd ltb) (a : α) :
    ltb a a = false := by
  cases hc : ltb a a with
  | false => rfl
  | true =>
    have h2 := h.asymm a a hc
    rw [hc] at h2
    exact h2

/-- The non-strict order associated to a strict comparator; this is the
relation we feed to the sorting routine. -/
def leOf (ltb : α → α → Bool) : α → α → Prop := fun a b => ltb b a = false

instance (ltb : α → α → Bool) : DecidableRel (leOf ltb) := fun _ _ => by
  unfold leOf; infer_instance

theorem StrictOrd.leOf_total {ltb : α → α → Bool} (h : StrictOrd ltb) :
    IsTotal α (leOf ltb) := by
  constructor
  intro a b
  cases hc : ltb b a with
  | false => exact Or.inl hc
  | true => exact Or.inr (h.asymm b a hc)

theorem StrictOrd.leOf_trans {ltb : α → α → Bool} (h : StrictOrd ltb) :
    IsTrans α (leOf ltb) := by
  constructor
  intro a b c hab hbc
  have hab1 : ltb b a = false := hab
  have hbc1 : ltb c b = false := hbc
  show ltb c a = false
  cases hc : ltb c a with
  | false => rfl
  | true =>
    cases hcb : ltb b c with
    | false =>
      have hbceq : b = c := h.conn b c hcb hbc1
      rw [hbceq] at hab1
      rw [hab1] at hc
      exact hc.symm
    | true =>
      have h2 := h.trans b c a hcb hc
      rw [hab1] at h2
      exact h2.symm

theorem StrictOrd.leOf_antisymm {ltb : α → α → Bool} (h : StrictOrd ltb) :
    IsAntisymm α (leOf ltb) := by
  constructor
  intro a b hab hba
  exact h.conn a b hba hab

theorem blt_true_iff (a b : Nat) : Nat.blt a b = true ↔ a < b :=
  iff_of_eq Nat.blt_eq

theorem blt_false_iff (a b : Nat) : Nat.blt a b = false ↔ ¬ a < b := by
  rw [← blt_true_iff]
  cases Nat.blt a b <;> simp

theorem strictOrd_nat : StrictOrd Nat.blt := by
  constructor
  · intro a b hab
    rw [blt_true_iff] at hab
    rw [blt_false_iff]
    omega
  · intro a b c hab hbc
    rw [blt_true_iff] at hab hbc ⊢
    omega
  · intro a b hab hba
    rw [blt_false_iff] at hab hba
    omega

theorem strictOrd_char : StrictOrd charLtb := by
  constructor
  · intro a b hab
    exact strictOrd_nat.asymm _ _ hab
  · intro a b c hab hbc
    exact strictOrd_nat.trans _ _ _ hab hbc
  · intro a b hab hba
    have h1 : a.toNat = b.toNat := strictOrd_nat.conn _ _ hab hba
    exact Char.eq_of_val_eq (UInt32.eq_of_val_eq (Fin.eq_of_val_eq h1))

theorem strictOrd_list {ltb : α → α → Bool} [DecidableEq α]
    (h : StrictOrd ltb) : StrictOrd (listLtb ltb) := by
  constructor
  · intro a
    induction a with
    | nil =>
      intro b hab
      cases b with
      | nil => simp [listLtb] at hab
      | cons x xs => simp [listLtb]
    | cons x xs ih =>
      intro b hab
      cases b with
      | nil => simp [listLtb] at hab
      | cons y ys =>
        simp only [listLtb, Bool.or_eq_true, Bool.and_eq_true, decide_eq_true_eq] at hab
        simp only [listLtb, Bool.or_eq_false_iff, Bool.and_eq_false_iff]
        rcases hab with hxy | ⟨hxe, hrest⟩
        · refine ⟨h.asymm _ _ hxy, Or.inl ?_⟩
          simp only [decide_eq_false_iff_not]
          intro he
          rw [he] at hxy
          rw [h.irrefl] at hxy
          cases hxy
        · subst hxe
          exact ⟨h.irrefl x, Or.inr (ih ys hrest)⟩
  · intro a
    induction a with
    | nil =>
      intro b c hab hbc
      cases b with
      | nil => simp [listLtb] at hab
      | cons y ys =>
        cases c with
        | nil => simp [listLtb] at hbc
        | cons z zs => simp [listLtb]
    | cons x xs ih =>
      intro b c hab hbc
      cases b with
      | nil => simp [listLtb] at hab
      | cons y ys =>
        cases c with
        | nil => simp [listLtb] at hbc
        | cons z zs =>
          simp only [listLtb, Bool.or_eq_true, Bool.and_eq_true, decide_eq_true_eq] at hab hbc ⊢
          rcases hab with hxy | ⟨hxe, hr1⟩
          · rcases hbc with hyz | ⟨hye, hr2⟩
            · exact Or.inl (h.trans _ _ _ hxy hyz)
            · subst hye; exact Or.inl hxy
          · subst hxe
            rcases hbc with hyz | ⟨hye, hr2⟩
            · exact Or.inl hyz
            · subst hye; exact Or.inr ⟨rfl, ih ys zs hr1 hr2⟩
  · intro a
    induction a with
    | nil =>
      intro b hab hba
      cases b with
      | nil => rfl
      | cons y ys => simp [listLtb] at hab
    | cons x xs ih =>
      intro b hab hba
      cases b with
      | nil => simp [listLtb] at hba
      | cons y ys =>
        simp only [listLtb, Bool.or_eq_false_iff, Bool.and_eq_false_iff,
          decide_eq_false_iff_not] at hab hba
        obtain ⟨hxy, h2⟩ := hab
        obtain ⟨hyx, h4⟩ := hba
        have hxe : x = y := h.conn _ _ hxy hyx
        subst hxe
        rcases h2 with h2 | h2
        · exact absurd rfl h2
        · rcases h4 with h4 | h4
          · exact absurd rfl h4
          · rw [ih ys h2 h4]

theorem strictOrd_str : StrictOrd strLtb := by
  have hl := strictOrd_list strictOrd_char
  constructor
  · intro a b hab; exact hl.asymm _ _ hab
  · intro a b c hab hbc; exact hl.trans _ _ _ hab hbc
  · intro a b hab hba
    have h1 : a.data = b.data := hl.conn _ _ hab hba
    cases a; cases b; exact congrArg String.mk h1

/-- Lexicographic comparator from a Nat key and a secondary key
(Python key tuples (len, canonical-sequence)).  It is a strict total order
as soon as the two keys jointly determine the value. -/
def lexLtb (f : α → Nat) (g : α → β) (ltbB : β → β → Bool) [DecidableEq Nat] :
    α → α → Bool :=
  fun a b => Nat.blt (f a) (f b) || (decide (f a = f b) && ltbB (g a) (g b))

theorem strictOrd_lex {f : α → Nat} {g : α → β} {ltbB : β → β → Bool}
    (hB : StrictOrd ltbB)
    (hinj : ∀ a b, f a = f b → g a = g b → a = b) :
    StrictOrd (lexLtb f g ltbB) := by
  constructor
  · intro a b hab
    simp only [lexLtb, Bool.or_eq_true, Bool.and_eq_true, decide_eq_true_eq] at hab
    simp only [lexLtb, Bool.or_eq_false_iff, Bool.and_eq_false_iff,
      decide_eq_false_iff_not]
    rcases hab with hab | ⟨hfe, hg⟩
    · refine ⟨strictOrd_nat.asymm _ _ hab, Or.inl ?_⟩
      intro he
      rw [he] at hab
      rw [strictOrd_nat.irrefl] at hab
      cases hab
    · rw [hfe]
      exact ⟨strictOrd_nat.irrefl _, Or.inr (hB.asymm _ _ hg)⟩
  · intro a b c hab hbc
    simp only [lexLtb, Bool.or_eq_true, Bool.and_eq_true, decide_eq_true_eq]
      at hab hbc ⊢
    rcases hab with hab | ⟨hfe, hg⟩
    · rcases hbc with hbc | ⟨hfe2, hg2⟩
      · exact Or.inl (strictOrd_nat.trans _ _ _ hab hbc)
      · rw [← hfe2]; exact Or.inl hab
    · rcases hbc with hbc | ⟨hfe2, hg2⟩
      · rw [hfe]; exact Or.inl hbc
      · exact Or.inr ⟨hfe.trans hfe2, hB.trans _ _ _ hg hg2⟩
  · intro a b hab hba
    simp only [lexLtb, Bool.or_eq_false_iff, Bool.and_eq_false_iff,
      decide_eq_false_iff_not] at hab hba
    obtain ⟨hf1, h2⟩ := hab
    obtain ⟨hf2, h4⟩ := hba
    have hfe : f a = f b := strictOrd_nat.conn _ _ hf1 hf2
    rcases h2 with h2 | h2
    · exact absurd hfe h2
    · rcases h4 with h4 | h4
      · exact absurd hfe.symm h4
      · exact hinj a b hfe (hB.conn _ _ h2 h4)

/-! ### Canonical sorted views of finite sets

Python calls sorted(...) on set contents; the result only depends on the set
(there is a unique sorted, duplicate-free enumeration for a strict total
order), which is exactly what lets us lift an insertion sort through the
multiset quotient.
-/

theorem insertionSort_perm_invariant {ltb : α → α → Bool} (h : StrictOrd ltb)
    [DecidableEq α] (l₁ l₂ : List α) (hp : List.Perm l₁ l₂) :
    l₁.insertionSort (leOf ltb) = l₂.insertionSort (leOf ltb) := by
  letI := h.leOf_total
  letI := h.leOf_trans
  letI := h.leOf_antisymm
  exact List.eq_of_perm_of_sorted
    (((List.perm_insertionSort _ l₁).trans hp).trans
      (List.perm_insertionSort _ l₂).symm)
    (List.sorted_insertionSort _ _) (List.sorted_insertionSort _ _)

/-- Sort the elements of a multiset by a strict total order comparator. -/
def msortBy (ltb : α → α → Bool) (h : StrictOrd ltb) [DecidableEq α]
    (m : Multiset α) : List α :=
  Quot.lift (fun l => l.insertionSort (leOf ltb))
    (fun l₁ l₂ hp => insertionSort_perm_invariant h l₁ l₂ hp) m

theorem msortBy_coe {ltb : α → α → Bool} (h : StrictOrd ltb) [DecidableEq α]
    (m : Multiset α) : (↑(msortBy ltb h m) : Multiset α) = m := by
  induction m using Quot.inductionOn with
  | h l => exact Quot.sound (List.perm_insertionSort _ l)

theorem mem_msortBy {ltb : α → α → Bool} {h : StrictOrd ltb} [DecidableEq α]
    {m : Multiset α} {a : α} : a ∈ msortBy ltb h m ↔ a ∈ m := by
  conv_rhs => rw [← msortBy_coe h m]
  exact Multiset.mem_coe.symm

theorem msortBy_nodup {ltb : α → α → Bool} (h : StrictOrd ltb) [DecidableEq α]
    {m : Multiset α} (hm : m.Nodup) : (msortBy ltb h m).Nodup := by
  rw [← msortBy_coe h m] at hm
  exact Multiset.coe_nodup.mp hm

/-- Canonical sorted list of the literals of a cube
(canon_cube in src/matrix.py: tuple(sorted(c))). -/
def canonCube (c : Cube) : List Literal := msortBy strLtb strictOrd_str c.val

theorem mem_canonCube {c : Cube} {a : Literal} : a ∈ canonCube c ↔ a ∈ c :=
  mem_msortBy

theorem canonCube_injective {c d : Cube} (h : canonCube c = canonCube d) :
    c = d := by
  apply Finset.ext
  intro a
  rw [← mem_canonCube, ← mem_canonCube, h]

/-- Strict comparator on cubes by (size, sorted literal tuple): the sort key
Python uses for co-kernel rows, canonical expressions and diagnostics. -/
def cubeLtb : Cube → Cube → Bool :=
  lexLtb Finset.card canonCube (listLtb strLtb)

theorem strictOrd_cube : StrictOrd cubeLtb :=
  strictOrd_lex (strictOrd_list strictOrd_str)
    (fun _ _ _ hg => canonCube_injective hg)

/-- Canonical sorted list of the cubes of an expression. -/
def sortedCubes (e : Expr) : List Cube := msortBy cubeLtb strictOrd_cube e.val

theorem mem_sortedCubes {e : Expr} {c : Cube} : c ∈ sortedCubes e ↔ c ∈ e :=
  mem_msortBy

theorem sortedCubes_nodup (e : Expr) : (sortedCubes e).Nodup :=
  msortBy_nodup strictOrd_cube e.nodup

theorem sortedCubes_toFinset (e : Expr) : (sortedCubes e).toFinset = e := by
  apply Finset.ext
  intro c
  rw [List.mem_toFinset, mem_sortedCubes]

/-- Canonical form of an expression: cubes sorted by (size, literal tuple),
each rendered as its sorted literal tuple (canon_expr in src/matrix.py). -/
def canonExpr (e : Expr) : List (List Literal) := (sortedCubes e).map canonCube

theorem canonExpr_injective {e f : Expr} (h : canonExpr e = canonExpr f) :
    e = f := by
  have h1 : sortedCubes e = sortedCubes f := by
    have hinj : Function.Injective canonCube := fun _ _ hg => canonCube_injective hg
    exact (List.map_injective_iff.mpr hinj) h
  apply Finset.ext
  intro c
  rw [← mem_sortedCubes, ← mem_sortedCubes, h1]

/-- Strict comparator on expressions by (cube count, canonical form):
Python's sort key (len(ce), ce) for kernel-matrix columns. -/
def exprLtb : Expr → Expr → Bool :=
  lexLtb Finset.card canonExpr (listLtb (listLtb strLtb))

theorem strictOrd_expr : StrictOrd exprLtb :=
  strictOrd_lex (strictOrd_list (strictOrd_list strictOrd_str))
    (fun _ _ _ hg => canonExpr_injective hg)

/-! ### src/division.py : algebraic division primitives -/

/-- Algebraic division of expression F by cube d (divide_expression in
src/division.py).  Returns (Q, R) with F = d * Q + R: cubes of F containing d
contribute (c - d) to Q, the others go to R; dividing by the empty cube gives
(F, empty). -/
def divide_expression (F : Expr) (d : Cube) : Expr × Expr :=
  if d = ∅ then (F, ∅)
  else ((F.filter (fun c => d ⊆ c)).image (fun c => c \ d),
        F.filter (fun c => ¬ d ⊆ c))

/-- Distribute cube d into every cube of Q (multiply_cube_expr in
src/division.py). -/
def multiply_cube_expr (d : Cube) (Q : Expr) : Expr :=
  Q.image (fun qc => d ∪ qc)

/-- Algebraic SOP addition: set union, idempotent (add_expr in
src/division.py). -/
def add_expr (A B : Expr) : Expr := A ∪ B

theorem union_sdiff_cancel {d c : Cube} (h : d ⊆ c) : d ∪ c \ d = c :=
  Finset.union_sdiff_of_subset h

/-- C1: division round-trip.  For every expression F and cube d, with
(Q, R) = divide_expression F d, add_expr (multiply_cube_expr d Q) R = F;
and dividing by the empty cube gives Q = F and R = the empty expression. -/
theorem C1_division_round_trip (F : Expr) (d : Cube) :
    add_expr (multiply_cube_expr d (divide_expression F d).1)
      (divide_expression F d).2 = F ∧
    (d = ∅ → (divide_expression F d).1 = F ∧ (divide_expression F d).2 = ∅) := by
  constructor
  · by_cases hd : d = ∅
    · subst hd
      simp [divide_expression, multiply_cube_expr, add_expr]
    · apply Finset.ext
      intro c
      simp only [divide_expression, if_neg hd, add_expr, multiply_cube_expr,
        Finset.mem_union, Finset.mem_image, Finset.mem_filter]
      constructor
      · rintro (⟨qc, ⟨c', ⟨hc'F, hdc'⟩, rfl⟩, rfl⟩ | ⟨hcF, _⟩)
        · rwa [union_sdiff_cancel hdc']
        · exact hcF
      · intro hcF
        by_cases hdc : d ⊆ c
        · exact Or.inl ⟨c \ d, ⟨c, ⟨hcF, hdc⟩, rfl⟩, union_sdiff_cancel hdc⟩
        · exact Or.inr ⟨hcF, hdc⟩
  · intro hd
    subst hd
    simp [divide_expression]

/-- Witness for C1 at F = {ab} and d = the empty cube. -/
theorem C1_division_round_trip_witness :
    add_expr (multiply_cube_expr ∅ (divide_expression {{"a", "b"}} ∅).1)
      (divide_expression {{"a", "b"}} ∅).2 = {{"a", "b"}} ∧
    ((divide_expression {{"a", "b"}} ∅).1 = {{"a", "b"}} ∧
      (divide_expression {{"a", "b"}} ∅).2 = ∅) :=
  ⟨(C1_division_round_trip {{"a", "b"}} ∅).1,
   (C1_division_round_trip {{"a", "b"}} ∅).2 rfl⟩

/-! ### src/kernel.py : common cube, cube-freeness, kernel extraction -/

/-- Intersection of the literals of all cubes of an expression (common_cube
in src/kernel.py).  The Python code folds set intersection over the set in
iteration order; intersection is commutative and associative, so folding
over the canonical enumeration computes the same cube. -/
def common_cube (e : Expr) : Cube :=
  match sortedCubes e with
  | [] => ∅
  | c :: rest => rest.foldl (fun acc d => acc ∩ d) c

theorem mem_foldl_inter {x : Literal} :
    ∀ (rest : List Cube) (c : Cube),
      x ∈ rest.foldl (fun acc d => acc ∩ d) c ↔ x ∈ c ∧ ∀ d ∈ rest, x ∈ d := by
  intro rest
  induction rest with
  | nil => intro c; simp
  | cons a as ih =>
    intro c
    rw [List.foldl_cons, ih]
    simp only [Finset.mem_inter, List.mem_cons]
    constructor
    · rintro ⟨⟨h1, h2⟩, h3⟩
      exact ⟨h1, fun d hd => by rcases hd with rfl | hd; exacts [h2, h3 d hd]⟩
    · rintro ⟨h1, h2⟩
      exact ⟨⟨h1, h2 a (Or.inl rfl)⟩, fun d hd => h2 d (Or.inr hd)⟩

theorem sortedCubes_eq_nil_iff {e : Expr} : sortedCubes e = [] ↔ e = ∅ := by
  constructor
  · intro h
    apply Finset.ext
    intro c
    rw [← mem_sortedCubes, h]
    simp
  · intro h
    subst h
    cases hs : sortedCubes (∅ : Expr) with
    | nil => rfl
    | cons a as =>
      have : a ∈ sortedCubes (∅ : Expr) := by rw [hs]; exact List.mem_cons_self a as
      rw [mem_sortedCubes] at this
      simp at this

theorem mem_common_cube {e : Expr} {x : Literal} :
    x ∈ common_cube e ↔ e.Nonempty ∧ ∀ c ∈ e, x ∈ c := by
  unfold common_cube
  cases hs : sortedCubes e with
  | nil =>
    have he : e = ∅ := sortedCubes_eq_nil_iff.mp hs
    subst he
    simp
  | cons c rest =>
    rw [mem_foldl_inter]
    have hmem : ∀ c' : Cube, c' ∈ e ↔ c' ∈ c :: rest := by
      intro c'
      rw [← mem_sortedCubes, hs]
    constructor
    · rintro ⟨h1, h2⟩
      refine ⟨⟨c, (hmem c).mpr (List.mem_cons_self c rest)⟩, ?_⟩
      intro d hd
      rcases List.mem_cons.mp ((hmem d).mp hd) with rfl | hd2
      · exact h1
      · exact h2 d hd2
    · rintro ⟨_, h2⟩
      exact ⟨h2 c ((hmem c).mpr (List.mem_cons_self c rest)),
        fun d hd => h2 d ((hmem d).mpr (List.mem_cons.mpr (Or.inr hd)))⟩

/-- Cube-free test (is_cube_free in src/kernel.py): the common cube is
empty. -/
def is_cube_free (e : Expr) : Prop := (common_cube e).card = 0

instance (e : Expr) : Decidable (is_cube_free e) := by
  unfold is_cube_free; infer_instance

theorem is_cube_free_iff {e : Expr} :
    is_cube_free e ↔ ∀ x : Literal, ¬ (e.Nonempty ∧ ∀ c ∈ e, x ∈ c) := by
  unfold is_cube_free
  rw [Finset.card_eq_zero, Finset.eq_empty_iff_forall_not_mem]
  constructor
  · intro h x
    rw [← mem_common_cube]
    exact h x
  · intro h x
    rw [mem_common_cube]
    exact h x

/-- Number of cubes of e containing a given literal (lit_count in
src/kernel.py). -/
def litOccurrences (e : Expr) (l : Literal) : Nat :=
  (e.filter (fun c => l ∈ c)).card

/-- The literals explored by the kernel recursion: occurring literals in
sorted order, restricted to those present in at least two cubes
(the pruned loop over sorted(lit_count.items()) in src/kernel.py). -/
def kernelLits (e : Expr) : List Literal :=
  (msortBy strLtb strictOrd_str (e.sup id).val).filter
    (fun l => 2 ≤ litOccurrences e l)

/-- Sub-expression of cubes containing l, with l removed from each
(sub and quotient in src/kernel.py). -/
def kernelQuotient (e : Expr) (l : Literal) : Expr :=
  (e.filter (fun c => l ∈ c)).image (fun c => c.erase l)

/-- State threaded through the kernel recursion: the ordered output list and
the dedup set keyed by canonical (co-kernel, kernel) pairs.  Since Expr is a
Finset, keying by the pair itself is exactly Python's canonical-form key. -/
structure KState where
  out : List (Cube × Expr)
  seen : Finset (Cube × Expr)

/-- Recording step of the kernel recursion: when the sub-expression is
cube-free and its canonical (co-kernel, kernel) key is unseen, append the
pair to the output (the body guarded by is_cube_free in src/kernel.py). -/
def kRecord (co : Cube) (expr : Expr) (st : KState) : KState :=
  if is_cube_free expr then
    if (co, expr) ∈ st.seen then st
    else ⟨st.out ++ [(co, expr)], insert (co, expr) st.seen⟩
  else st

/-- Recursive kernel/co-kernel exploration (recurse in src/kernel.py).
The fuel argument makes the recursion structural; the Python recursion
terminates because the total literal count strictly decreases at each
recursive call (each cube of the sub-expression loses the chosen literal),
so any fuel larger than that measure computes the same result. -/
def kernelsAux : Nat → Expr → Cube → KState → KState
  | 0, _, _, st => st
  | fuel + 1, expr, co, st =>
    if expr = ∅ then st
    else
      (kernelLits expr).foldl
        (fun s l => kernelsAux fuel (kernelQuotient expr l) (co ∪ {l}) s)
        (kRecord co expr st)

/-- Kernel/co-kernel pairs of F (kernels in src/kernel.py), starting from
co-kernel = 1 (the empty cube). -/
def kernels (F : Expr) : List (Cube × Expr) :=
  (kernelsAux (F.sum Finset.card + 1) F ∅ ⟨[], ∅⟩).out

theorem kRecord_mono {co : Cube} {e : Expr} {st : KState} {p : Cube × Expr}
    (hp : p ∈ st.out) : p ∈ (kRecord co e st).out := by
  unfold kRecord
  split
  · split
    · exact hp
    · exact List.mem_append.mpr (Or.inl hp)
  · exact hp

theorem kRecord_inv {P : Cube × Expr → Prop} {co : Cube} {e : Expr}
    {st : KState} (h : ∀ p ∈ st.out, P p) (hco : is_cube_free e → P (co, e)) :
    ∀ p ∈ (kRecord co e st).out, P p := by
  unfold kRecord
  split
  · split
    · exact h
    · intro p hp
      rcases List.mem_append.mp hp with hp1 | hp2
      · exact h p hp1
      · rw [List.mem_singleton.mp hp2]
        next hcf _ => exact hco hcf
  · exact h

theorem kernelsAux_mono :
    ∀ (fuel : Nat) (e : Expr) (co : Cube) (st : KState) (p : Cube × Expr),
      p ∈ st.out → p ∈ (kernelsAux fuel e co st).out := by
  intro fuel
  induction fuel with
  | zero =>
    intro e co st p hp
    exact hp
  | succ n ih =>
    intro e co st p hp
    rw [kernelsAux]
    by_cases he : e = ∅
    · rw [if_pos he]; exact hp
    · rw [if_neg he]
      have hfold : ∀ (ls : List Literal) (s : KState), p ∈ s.out →
          p ∈ (ls.foldl
            (fun s l => kernelsAux n (kernelQuotient e l) (co ∪ {l}) s) s).out := by
        intro ls
        induction ls with
        | nil => intro s hs; exact hs
        | cons a as iha =>
          intro s hs
          exact iha _ (ih _ _ _ _ hs)
      exact hfold _ _ (kRecord_mono hp)

theorem kernelsFold_mono (n : Nat) (e : Expr) (co : Cube)
    (ls : List Literal) (s : KState) (p : Cube × Expr) (hp : p ∈ s.out) :
    p ∈ (ls.foldl
      (fun s l => kernelsAux n (kernelQuotient e l) (co ∪ {l}) s) s).out := by
  induction ls generalizing s with
  | nil => exact hp
  | cons a as iha => exact iha _ (kernelsAux_mono n _ _ _ p hp)

theorem kernelsAux_inv (P : Cube × Expr → Prop)
    (hP : ∀ (co : Cube) (e : Expr), is_cube_free e → P (co, e)) :
    ∀ (fuel : Nat) (e : Expr) (co : Cube) (st : KState),
      (∀ p ∈ st.out, P p) → ∀ p ∈ (kernelsAux fuel e co st).out, P p := by
  intro fuel
  induction fuel with
  | zero =>
    intro e co st h
    exact h
  | succ n ih =>
    intro e co st h
    rw [kernelsAux]
    by_cases he : e = ∅
    · rw [if_pos he]; exact h
    · rw [if_neg he]
      have hfold : ∀ (ls : List Literal) (s : KState), (∀ p ∈ s.out, P p) →
          ∀ p ∈ (ls.foldl
            (fun s l => kernelsAux n (kernelQuotient e l) (co ∪ {l}) s) s).out, P p := by
        intro ls
        induction ls with
        | nil => intro s hs; exact hs
        | cons a as iha =>
          intro s hs
          exact iha _ (ih _ _ _ hs)
      exact hfold _ _ (kRecord_inv h (fun hcf => hP co e hcf))

theorem kernels_cube_free (F : Expr) : ∀ p ∈ kernels F, is_cube_free p.2 := by
  unfold kernels
  apply kernelsAux_inv (fun p => is_cube_free p.2)
    (fun _ _ hcf => hcf)
  intro p hp
  simp at hp

theorem kernels_records_cube_free_input (F : Expr) (hne : F ≠ ∅)
    (hcf : is_cube_free F) : (∅, F) ∈ kernels F := by
  unfold kernels
  rw [kernelsAux]
  rw [if_neg hne]
  apply kernelsFold_mono
  unfold kRecord
  rw [if_pos hcf]
  have hseen : ((∅, F) ∈ (⟨[], ∅⟩ : KState).seen) = False := by
    simp
  rw [if_neg (by simp)]
  exact List.mem_append.mpr (Or.inr (List.mem_singleton.mpr rfl))

theorem kernelLits_eq_nil {F : Expr}
    (h : ∀ l : Literal, litOccurrences F l < 2) : kernelLits F = [] := by
  unfold kernelLits
  apply List.filter_eq_nil_iff.mpr
  intro l _
  simp only [decide_eq_true_eq]
  exact Nat.not_le.mpr (h l)

theorem kernels_no_cooccurrence (F : Expr)
    (h : ∀ l : Literal, litOccurrences F l < 2) :
    ∀ p ∈ kernels F, p.1 = ∅ := by
  unfold kernels
  rw [kernelsAux]
  by_cases he : F = ∅
  · rw [if_pos he]
    intro p hp
    simp at hp
  · rw [if_neg he]
    rw [kernelLits_eq_nil h, List.foldl_nil]
    unfold kRecord
    split
    · rw [if_neg (by simp)]
      intro p hp
      rcases List.mem_append.mp hp with hp1 | hp2
      · simp at hp1
      · rw [List.mem_singleton.mp hp2]
    · intro p hp
      simp at hp

/-- Two disjoint single-literal cubes: a + b.  This expression is cube-free
and no literal occurs in two of its cubes. -/
def twoSingletons : Expr := {{"a"}, {"b"}}

theorem twoSingletons_lit_occ (l : Literal) :
    litOccurrences twoSingletons l < 2 := by
  by_cases h1 : l = "a"
  · subst h1; decide
  · by_cases h2 : l = "b"
    · subst h2; decide
    · have hfe : Finset.filter (fun c => l ∈ c) twoSingletons = ∅ := by
        apply Finset.filter_eq_empty_iff.mpr
        intro c hc
        rcases Finset.mem_insert.mp hc with rfl | hc2
        · intro hl
          exact h1 (Finset.mem_singleton.mp hl)
        · rw [Finset.mem_singleton.mp hc2]
          intro hl
          exact h2 (Finset.mem_singleton.mp hl)
      unfold litOccurrences
      rw [hfe]
      simp

/-- C5 counterexample: the claim fails as stated.  The empty expression is
cube-free yet kernels records no pair for it; and the expression a + b has
no literal occurring in two cubes yet kernels returns the trivial pair
(empty co-kernel, whole expression) rather than no pairs. -/
theorem C5_counterexample :
    (is_cube_free (∅ : Expr) ∧ kernels (∅ : Expr) = []) ∧
    ((∀ l : Literal, litOccurrences twoSingletons l < 2) ∧
      kernels twoSingletons ≠ []) :=
  ⟨⟨by decide, by decide⟩, ⟨twoSingletons_lit_occ, by decide⟩⟩

/-- C5 (amended): every pair returned by kernels has a cube-free kernel; a
NONEMPTY cube-free input is recorded with the empty co-kernel; and an input
with fewer than 2 cubes sharing any literal yields no pair with a nonempty
co-kernel (only possibly the trivial whole-expression pair). -/
theorem C5_kernel_cube_freeness (F : Expr) :
    (∀ p ∈ kernels F, is_cube_free p.2) ∧
    (F ≠ ∅ → is_cube_free F → (∅, F) ∈ kernels F) ∧
    ((∀ l : Literal, litOccurrences F l < 2) → ∀ p ∈ kernels F, p.1 = ∅) :=
  ⟨kernels_cube_free F,
   fun hne hcf => kernels_records_cube_free_input F hne hcf,
   fun h => kernels_no_cooccurrence F h⟩

/-- Witness for C5 at F = a + b: the input is nonempty and cube-free, so the
trivial pair is recorded; every returned kernel is cube-free; and every
returned co-kernel is empty. -/
theorem C5_kernel_cube_freeness_witness :
    (∀ p ∈ kernels twoSingletons, is_cube_free p.2) ∧
    (∅, twoSingletons) ∈ kernels twoSingletons ∧
    (∀ p ∈ kernels twoSingletons, p.1 = ∅) :=
  ⟨(C5_kernel_cube_freeness twoSingletons).1,
   (C5_kernel_cube_freeness twoSingletons).2.1 (by decide) (by decide),
   (C5_kernel_cube_freeness twoSingletons).2.2 twoSingletons_lit_occ⟩

/-! ### src/matrix.py : kernel matrix -/

/-- Kernel matrix (KernelMatrix in src/matrix.py): rows are the distinct
co-kernels sorted by (size, literal tuple), columns the distinct kernels
deduplicated by canonical expression and sorted by (size, canonical form),
and ones the sparse set of observed (row, col) incidences.  The dense 0/1
matrix and the two index dictionaries of the Python class are views derived
from these three fields (the sparse relation is authoritative per the
design), so the embedding carries only the authoritative data. -/
structure KernelMatrix where
  rows : List Cube
  cols : List Expr
  ones : Finset (Nat × Nat)

/-- Build the kernel matrix from extracted (co-kernel, kernel) pairs
(build_kernel_matrix in src/matrix.py).  Expr is a Finset, so equality of
kernels is exactly equality of canonical forms, and the sorted
deduplicated column list matches Python's canonical-form dedup. -/
def build_kernel_matrix (pairs : List (Cube × Expr)) : KernelMatrix :=
  { rows := msortBy cubeLtb strictOrd_cube (pairs.map Prod.fst).toFinset.val
    cols := msortBy exprLtb strictOrd_expr (pairs.map Prod.snd).toFinset.val
    ones := (pairs.map (fun p =>
      ((msortBy cubeLtb strictOrd_cube (pairs.map Prod.fst).toFinset.val).findIdx
          (fun c => decide (c = p.1)),
       (msortBy exprLtb strictOrd_expr (pairs.map Prod.snd).toFinset.val).findIdx
          (fun e => decide (e = p.2))))).toFinset }

/-- Row cube at index i; out-of-range indices (impossible for rectangles
produced by the pipeline) default to the empty cube. -/
def rowGet (KM : KernelMatrix) (i : Nat) : Cube := KM.rows.getD i ∅

/-- Column kernel at index j; out-of-range defaults to the empty
expression. -/
def colGet (KM : KernelMatrix) (j : Nat) : Expr := KM.cols.getD j ∅

/-- Well-formedness of a kernel matrix: the sparse relation only mentions
valid row and column indices.  build_kernel_matrix always produces a
well-formed matrix. -/
def KernelMatrix.WF (KM : KernelMatrix) : Prop :=
  ∀ p ∈ KM.ones, p.1 < KM.rows.length ∧ p.2 < KM.cols.length

instance (KM : KernelMatrix) : Decidable KM.WF := by
  unfold KernelMatrix.WF; infer_instance

theorem build_kernel_matrix_wf (pairs : List (Cube × Expr)) :
    (build_kernel_matrix pairs).WF := by
  intro p hp
  unfold build_kernel_matrix at hp ⊢
  simp only [List.mem_toFinset, List.mem_map] at hp
  obtain ⟨q, hq, rfl⟩ := hp
  constructor
  · apply List.findIdx_lt_length_of_exists
    refine ⟨q.1, ?_, by simp⟩
    rw [mem_msortBy, Finset.mem_val, List.mem_toFinset]
    exact List.mem_map.mpr ⟨q, hq, rfl⟩
  · apply List.findIdx_lt_length_of_exists
    refine ⟨q.2, ?_, by simp⟩
    rw [mem_msortBy, Finset.mem_val, List.mem_toFinset]
    exact List.mem_map.mpr ⟨q, hq, rfl⟩

/-! ### src/rectangles.py : closed-rectangle enumeration -/

/-- A rectangle of the kernel matrix: a set of row indices and a set of
column indices (Rectangle in src/rectangles.py). -/
structure Rectangle where
  rows : Finset Nat
  cols : Finset Nat
deriving DecidableEq

def Rectangle.nrows (r : Rectangle) : Nat := r.rows.card

def Rectangle.ncols (r : Rectangle) : Nat := r.cols.card

def Rectangle.area (r : Rectangle) : Nat := r.nrows * r.ncols

/-- Set of row indices related to column j (_build_col_rows in
src/rectangles.py, computed from the sparse relation). -/
def colRows (KM : KernelMatrix) (j : Nat) : Finset Nat :=
  (KM.ones.filter (fun p => p.2 = j)).image Prod.fst

theorem mem_colRows {KM : KernelMatrix} {i j : Nat} :
    i ∈ colRows KM j ↔ (i, j) ∈ KM.ones := by
  unfold colRows
  constructor
  · intro h
    obtain ⟨p, hp, hpi⟩ := Finset.mem_image.mp h
    obtain ⟨hpones, hpj⟩ := Finset.mem_filter.mp hp
    have : p = (i, j) := by
      cases p
      simp only at hpi hpj
      rw [hpi, hpj]
    rwa [this] at hpones
  · intro h
    exact Finset.mem_image.mpr ⟨(i, j), Finset.mem_filter.mpr ⟨h, rfl⟩, rfl⟩

/-- Closure of a row set: all columns (within range) whose row set contains
every selected row (_closure_cols_from_rows in src/rectangles.py). -/
def closureCols (KM : KernelMatrix) (rows : Finset Nat) : Finset Nat :=
  if rows = ∅ then ∅
  else (Finset.range KM.cols.length).filter (fun j => rows ⊆ colRows KM j)

theorem mem_closureCols {KM : KernelMatrix} {rows : Finset Nat} {j : Nat}
    (hne : rows ≠ ∅) :
    j ∈ closureCols KM rows ↔ j < KM.cols.length ∧ rows ⊆ colRows KM j := by
  unfold closureCols
  rw [if_neg hne, Finset.mem_filter, Finset.mem_range]

/-- Enumeration state: output list and dedup set keyed by (rows, cols). -/
structure RState where
  out : List Rectangle
  seen : Finset (Finset Nat × Finset Nat)

/-- Early-stop test against the caller cap (the max_rectangles check at the
top of dfs in src/rectangles.py). -/
def capReached (cap : Option Nat) (st : RState) : Bool :=
  match cap with
  | none => false
  | some c => c ≤ st.out.length

/-- Rectangle recording (record in src/rectangles.py): skip already-seen
(rows, cols) keys, keep only rectangles meeting both minimums. -/
def rRecord (minRows minCols : Nat) (rows cols : Finset Nat)
    (st : RState) : RState :=
  if (rows, cols) ∈ st.seen then st
  else if minRows ≤ rows.card ∧ minCols ≤ cols.card then
    ⟨st.out ++ [⟨rows, cols⟩], insert (rows, cols) st.seen⟩
  else st

/-- DFS over column extensions (dfs in src/rectangles.py): record the
closure of the current row set, then branch on later columns outside the
closure whose row set meets the current rows.  The Python current_cols
accumulator is dead (never read) and is omitted.  The fuel argument makes
the recursion structural: the start column strictly increases and is
bounded by the column count, so ncols + 1 units of fuel always suffice. -/
def rectDfs (KM : KernelMatrix) (minRows minCols : Nat) (cap : Option Nat) :
    Nat → Nat → Finset Nat → RState → RState
  | 0, _, _, st => st
  | fuel + 1, startCol, currentRows, st =>
    if capReached cap st then st
    else
      (List.range' startCol (KM.cols.length - startCol)).foldl
        (fun s j =>
          if j ∈ closureCols KM currentRows then s
          else if currentRows ∩ colRows KM j = ∅ then s
          else rectDfs KM minRows minCols cap fuel (j + 1)
            (currentRows ∩ colRows KM j) s)
        (rRecord minRows minCols currentRows (closureCols KM currentRows) st)

/-- Closed-rectangle enumeration (enumerate_closed_rectangles in
src/rectangles.py): seed a DFS from every column with a nonempty row
set. -/
def enumerate_closed_rectangles (KM : KernelMatrix)
    (minRows minCols : Nat) (cap : Option Nat) : List Rectangle :=
  ((List.range KM.cols.length).foldl
    (fun st j =>
      if colRows KM j = ∅ then st
      else rectDfs KM minRows minCols cap (KM.cols.length + 1) (j + 1)
        (colRows KM j) st)
    ⟨[], ∅⟩).out

/-- Structural invariant of every recorded rectangle: nonempty row set and
column set exactly the closure of the row set. -/
def GoodRect (KM : KernelMatrix) (r : Rectangle) : Prop :=
  r.rows ≠ ∅ ∧ r.cols = closureCols KM r.rows

theorem rRecord_inv {KM : KernelMatrix} {minRows minCols : Nat}
    {rows : Finset Nat} {st : RState}
    (h : ∀ r ∈ st.out, GoodRect KM r) (hne : rows ≠ ∅) :
    ∀ r ∈ (rRecord minRows minCols rows (closureCols KM rows) st).out,
      GoodRect KM r := by
  unfold rRecord
  split
  · exact h
  · split
    · intro r hr
      rcases List.mem_append.mp hr with hr1 | hr2
      · exact h r hr1
      · rw [List.mem_singleton.mp hr2]
        exact ⟨hne, rfl⟩
    · exact h

theorem rectDfs_inv (KM : KernelMatrix) (minRows minCols : Nat)
    (cap : Option Nat) :
    ∀ (fuel startCol : Nat) (rows : Finset Nat) (st : RState),
      rows ≠ ∅ → (∀ r ∈ st.out, GoodRect KM r) →
      ∀ r ∈ (rectDfs KM minRows minCols cap fuel startCol rows st).out,
        GoodRect KM r := by
  intro fuel
  induction fuel with
  | zero =>
    intro startCol rows st _ h
    exact h
  | succ n ih =>
    intro startCol rows st hne h
    rw [rectDfs]
    split
    · exact h
    · have hfold : ∀ (ls : List Nat) (s : RState),
          (∀ r ∈ s.out, GoodRect KM r) →
          ∀ r ∈ (ls.foldl
            (fun s j =>
              if j ∈ closureCols KM rows then s
              else if rows ∩ colRows KM j = ∅ then s
              else rectDfs KM minRows minCols cap n (j + 1)
                (rows ∩ colRows KM j) s) s).out, GoodRect KM r := by
        intro ls
        induction ls with
        | nil => intro s hs; exact hs
        | cons a as iha =>
          intro s hs
          apply iha
          dsimp only
          by_cases h1 : a ∈ closureCols KM rows
          · rw [if_pos h1]; exact hs
          · rw [if_neg h1]
            by_cases h2 : rows ∩ colRows KM a = ∅
            · rw [if_pos h2]; exact hs
            · rw [if_neg h2]
              exact ih (a + 1) (rows ∩ colRows KM a) s h2 hs
      exact hfold _ _ (rRecord_inv h hne)

theorem enumerate_inv (KM : KernelMatrix) (minRows minCols : Nat)
    (cap : Option Nat) :
    ∀ r ∈ enumerate_closed_rectangles KM minRows minCols cap,
      GoodRect KM r := by
  unfold enumerate_closed_rectangles
  have hfold : ∀ (ls : List Nat) (s : RState),
      (∀ r ∈ s.out, GoodRect KM r) →
      ∀ r ∈ (ls.foldl
        (fun st j =>
          if colRows KM j = ∅ then st
          else rectDfs KM minRows minCols cap (KM.cols.length + 1) (j + 1)
            (colRows KM j) st) s).out, GoodRect KM r := by
    intro ls
    induction ls with
    | nil => intro s hs; exact hs
    | cons a as iha =>
      intro s hs
      apply iha
      dsimp only
      by_cases h1 : colRows KM a = ∅
      · rw [if_pos h1]; exact hs
      · rw [if_neg h1]
        exact rectDfs_inv KM minRows minCols cap _ _ _ s h1 hs
  apply hfold
  intro r hr
  simp at hr

/-- C2: every rectangle returned by enumerate_closed_rectangles is all-ones
(every selected row is related to every selected column in KM.ones), and
its column set is exactly the closure of its row set: for a well-formed
matrix, a column j belongs to rect.cols if and only if every row of
rect.rows is related to j (hence no outside column's row set is a superset
of the rectangle's rows). -/
theorem C2_rectangle_closure (KM : KernelMatrix) (minRows minCols : Nat)
    (cap : Option Nat) (hwf : KM.WF) :
    ∀ rect ∈ enumerate_closed_rectangles KM minRows minCols cap,
      (∀ i ∈ rect.rows, ∀ j ∈ rect.cols, (i, j) ∈ KM.ones) ∧
      (∀ j : Nat, j ∈ rect.cols ↔ ∀ i ∈ rect.rows, (i, j) ∈ KM.ones) := by
  intro rect hr
  obtain ⟨hne, hcols⟩ := enumerate_inv KM minRows minCols cap rect hr
  constructor
  · intro i hi j hj
    rw [hcols, mem_closureCols hne] at hj
    exact mem_colRows.mp (hj.2 hi)
  · intro j
    rw [hcols, mem_closureCols hne]
    constructor
    · rintro ⟨_, hsub⟩ i hi
      exact mem_colRows.mp (hsub hi)
    · intro hall
      obtain ⟨i0, hi0⟩ := Finset.nonempty_iff_ne_empty.mpr hne
      refine ⟨(hwf (i0, j) (hall i0 hi0)).2, ?_⟩
      intro i hi
      exact mem_colRows.mpr (hall i hi)

/-- Small concrete kernel matrix for the C2 witness: the matrix of
F = ab + ac, which has the single pair (a, b + c). -/
def KMw : KernelMatrix := build_kernel_matrix (kernels {{"a", "b"}, {"a", "c"}})

/-- Witness for C2 on the concrete matrix KMw. -/
theorem C2_rectangle_closure_witness :
    KMw.WF ∧
    (∀ rect ∈ enumerate_closed_rectangles KMw 1 1 none,
      (∀ i ∈ rect.rows, ∀ j ∈ rect.cols, (i, j) ∈ KMw.ones) ∧
      (∀ j : Nat, j ∈ rect.cols ↔ ∀ i ∈ rect.rows, (i, j) ∈ KMw.ones)) :=
  ⟨by decide, C2_rectangle_closure KMw 1 1 none (by decide)⟩

/-! ### src/rectangles.py : profit evaluation and best-rectangle choice -/

/-- T: union of the kernel expressions of the selected columns (the T
accumulation loops in rectangle_profit and apply_rectangle_once). -/
def unionCols (KM : KernelMatrix) (rect : Rectangle) : Expr :=
  rect.cols.sup (fun j => colGet KM j)

/-- Covered region of a rectangle: all cubes r ∪ t for a selected co-kernel
row r and a cube t of T (the covered set built in rectangle_profit). -/
def coveredCubes (KM : KernelMatrix) (rect : Rectangle) : Expr :=
  rect.rows.sup (fun i => (unionCols KM rect).image (fun t => rowGet KM i ∪ t))

theorem mem_coveredCubes {KM : KernelMatrix} {rect : Rectangle} {c : Cube} :
    c ∈ coveredCubes KM rect ↔
      ∃ i ∈ rect.rows, ∃ t ∈ unionCols KM rect, c = rowGet KM i ∪ t := by
  unfold coveredCubes
  rw [Finset.mem_sup]
  constructor
  · rintro ⟨i, hi, hc⟩
    obtain ⟨t, ht, rfl⟩ := Finset.mem_image.mp hc
    exact ⟨i, hi, t, ht, rfl⟩
  · rintro ⟨i, hi, t, ht, rfl⟩
    exact ⟨i, hi, Finset.mem_image.mpr ⟨t, ht, rfl⟩⟩

/-- Literal-count profit of extracting a rectangle (rectangle_profit in
src/rectangles.py): literal cost of the distinct covered cubes, minus the
definition cost of the new node (sum of co-kernel sizes) and its usage cost
(1 + size per cube of T). -/
def rectangle_profit (KM : KernelMatrix) (rect : Rectangle) : Int :=
  let T := unionCols KM rect
  let before := (coveredCubes KM rect).sum Finset.card
  let defCost := rect.rows.sum (fun i => (rowGet KM i).card)
  let useCost := T.sum (fun t => 1 + t.card)
  (before : Int) - (defCost + useCost)

/-- Modelled from the spec (section 4.5) for the refinement conjunct of C4:
R = the rectangle's co-kernel cubes (as the indexed family over its row
set), T = union of its kernel columns; before-cost = literal count of the
deduplicated set of covered cubes, built here as the image of the product
R x T; after-cost = sum of co-kernel sizes plus sum of (1 + cube size) over
T; profit = before minus after. -/
def rectangle_profit_spec (KM : KernelMatrix) (rect : Rectangle) : Int :=
  let T := unionCols KM rect
  let covered := (rect.rows ×ˢ T).image (fun p => rowGet KM p.1 ∪ p.2)
  ((covered.sum Finset.card : Nat) : Int) -
    ((rect.rows.sum (fun i => (rowGet KM i).card) : Nat) +
     (T.sum (fun t => 1 + t.card) : Nat))

theorem coveredCubes_eq_product_image (KM : KernelMatrix) (rect : Rectangle) :
    coveredCubes KM rect =
      (rect.rows ×ˢ unionCols KM rect).image (fun p => rowGet KM p.1 ∪ p.2) := by
  apply Finset.ext
  intro c
  rw [mem_coveredCubes]
  constructor
  · rintro ⟨i, hi, t, ht, rfl⟩
    exact Finset.mem_image.mpr ⟨(i, t), Finset.mem_product.mpr ⟨hi, ht⟩, rfl⟩
  · intro hc
    obtain ⟨p, hp, rfl⟩ := Finset.mem_image.mp hc
    obtain ⟨h1, h2⟩ := Finset.mem_product.mp hp
    exact ⟨p.1, h1, p.2, h2, rfl⟩

/-- Selection key used by best_rectangle: (profit, area, row count, column
count), compared lexicographically exactly as Python compares the tuple. -/
def rectKey (KM : KernelMatrix) (r : Rectangle) : Int × Nat × Nat × Nat :=
  (rectangle_profit KM r, r.area, r.nrows, r.ncols)

def intLtb (a b : Int) : Bool := decide (a < b)

theorem strictOrd_int : StrictOrd intLtb := by
  constructor
  · intro a b hab
    simp only [intLtb, decide_eq_true_eq] at hab
    simp only [intLtb, decide_eq_false_iff_not]
    omega
  · intro a b c hab hbc
    simp only [intLtb, decide_eq_true_eq] at hab hbc ⊢
    omega
  · intro a b hab hba
    simp only [intLtb, decide_eq_false_iff_not] at hab hba
    omega

/-- Lexicographic comparator on pairs (Python tuple comparison). -/
def pairLtb (ltbA : α → α → Bool) (ltbB : β → β → Bool) [DecidableEq α] :
    α × β → α × β → Bool :=
  fun a b => ltbA a.1 b.1 || (decide (a.1 = b.1) && ltbB a.2 b.2)

theorem strictOrd_pair {ltbA : α → α → Bool} {ltbB : β → β → Bool}
    [DecidableEq α] (hA : StrictOrd ltbA) (hB : StrictOrd ltbB) :
    StrictOrd (pairLtb ltbA ltbB) := by
  constructor
  · intro a b hab
    simp only [pairLtb, Bool.or_eq_true, Bool.and_eq_true, decide_eq_true_eq] at hab
    simp only [pairLtb, Bool.or_eq_false_iff, Bool.and_eq_false_iff,
      decide_eq_false_iff_not]
    rcases hab with hab | ⟨hfe, hg⟩
    · refine ⟨hA.asymm _ _ hab, Or.inl ?_⟩
      intro he
      rw [he] at hab
      rw [hA.irrefl] at hab
      cases hab
    · rw [hfe]
      exact ⟨hA.irrefl _, Or.inr (hB.asymm _ _ hg)⟩
  · intro a b c hab hbc
    simp only [pairLtb, Bool.or_eq_true, Bool.and_eq_true, decide_eq_true_eq]
      at hab hbc ⊢
    rcases hab with hab | ⟨hfe, hg⟩
    · rcases hbc with hbc | ⟨hfe2, hg2⟩
      · exact Or.inl (hA.trans _ _ _ hab hbc)
      · rw [← hfe2]; exact Or.inl hab
    · rcases hbc with hbc | ⟨hfe2, hg2⟩
      · rw [hfe]; exact Or.inl hbc
      · exact Or.inr ⟨hfe.trans hfe2, hB.trans _ _ _ hg hg2⟩
  · intro a b hab hba
    simp only [pairLtb, Bool.or_eq_false_iff, Bool.and_eq_false_iff,
      decide_eq_false_iff_not] at hab hba
    obtain ⟨hf1, h2⟩ := hab
    obtain ⟨hf2, h4⟩ := hba
    have hfe : a.1 = b.1 := hA.conn _ _ hf1 hf2
    rcases h2 with h2 | h2
    · exact absurd hfe h2
    · rcases h4 with h4 | h4
      · exact absurd hfe.symm h4
      · cases a; cases b
        simp only at hfe h2 h4
        rw [hfe, hB.conn _ _ h2 h4]

/-- Strict lexicographic less-than on selection keys. -/
def keyLtb : Int × Nat × Nat × Nat → Int × Nat × Nat × Nat → Bool :=
  pairLtb intLtb (pairLtb Nat.blt (pairLtb Nat.blt Nat.blt))

theorem strictOrd_key : StrictOrd keyLtb :=
  strictOrd_pair strictOrd_int
    (strictOrd_pair strictOrd_nat (strictOrd_pair strictOrd_nat strictOrd_nat))

/-- Python's key > best_key on selection keys. -/
def keyGTb (a b : Int × Nat × Nat × Nat) : Bool := keyLtb b a

/-- One step of the best-rectangle fold: keep the current candidate unless
the new rectangle's key strictly exceeds the stored best key (the loop body
of best_rectangle in src/rectangles.py). -/
def bestStep (KM : KernelMatrix)
    (acc : Option (Rectangle × (Int × Nat × Nat × Nat))) (r : Rectangle) :
    Option (Rectangle × (Int × Nat × Nat × Nat)) :=
  match acc with
  | none => some (r, rectKey KM r)
  | some (b, bk) =>
    if keyGTb (rectKey KM r) bk then some (r, rectKey KM r)
    else some (b, bk)

/-- Deterministic best-rectangle selection (best_rectangle in
src/rectangles.py): fold over the candidate list keeping the first
candidate whose key strictly exceeds the current best key. -/
def best_rectangle (KM : KernelMatrix) (rects : List Rectangle) :
    Option Rectangle :=
  (rects.foldl (bestStep KM) none).map Prod.fst

theorem keyGTb_le_trans {x k1 k2 : Int × Nat × Nat × Nat}
    (h1 : keyGTb x k1 = false) (h2 : keyGTb k1 k2 = false) :
    keyGTb x k2 = false := by
  have ht := strictOrd_key.leOf_trans
  exact ht.trans x k1 k2 h1 h2

theorem bestFold_spec (KM : KernelMatrix) :
    ∀ (ls : List Rectangle)
      (acc : Option (Rectangle × (Int × Nat × Nat × Nat)))
      (rr : Rectangle) (rk : Int × Nat × Nat × Nat),
      (∀ b bk, acc = some (b, bk) → bk = rectKey KM b) →
      ls.foldl (bestStep KM) acc = some (rr, rk) →
      rk = rectKey KM rr ∧
      ((acc = none → rr ∈ ls) ∧
       (∀ b bk, acc = some (b, bk) → rr ∈ ls ∨ (rr = b ∧ rk = bk))) ∧
      (∀ x ∈ ls, keyGTb (rectKey KM x) rk = false) ∧
      (∀ b bk, acc = some (b, bk) → keyGTb bk rk = false) := by
  intro ls
  induction ls with
  | nil =>
    intro acc rr rk hacc hfold
    rw [List.foldl_nil] at hfold
    subst hfold
    have hk : rk = rectKey KM rr := hacc rr rk rfl
    refine ⟨hk, ⟨?_, ?_⟩, ?_, ?_⟩
    · intro hn
      cases hn
    · intro b bk hbk
      injection hbk with hb
      injection hb with h1 h2
      exact Or.inr ⟨h1, h2⟩
    · intro x hx
      cases hx
    · intro b bk hbk
      injection hbk with hb
      injection hb with h1 h2
      rw [h2]
      exact strictOrd_key.irrefl _
  | cons a as ih =>
    intro acc rr rk hacc hfold
    rw [List.foldl_cons] at hfold
    have hstep : ∀ b bk, bestStep KM acc a = some (b, bk) → bk = rectKey KM b := by
      intro b bk hbk
      cases acc with
      | none =>
        simp only [bestStep] at hbk
        injection hbk with hb
        injection hb with h1 h2
        rw [h1] at h2
        exact h2.symm
      | some p =>
        obtain ⟨b0, bk0⟩ := p
        simp only [bestStep] at hbk
        split at hbk
        · injection hbk with hb
          injection hb with h1 h2
          rw [h1] at h2
          exact h2.symm
        · injection hbk with hb
          injection hb with h1 h2
          have h3 := hacc b0 bk0 rfl
          rw [h1, h2] at h3
          exact h3
    obtain ⟨hk, ⟨hmemn, hmems⟩, hbound, haccb⟩ := ih (bestStep KM acc a) rr rk hstep hfold
    have hstepval : ∃ b bk, bestStep KM acc a = some (b, bk) := by
      cases acc with
      | none => exact ⟨a, rectKey KM a, rfl⟩
      | some p =>
        obtain ⟨b0, bk0⟩ := p
        simp only [bestStep]
        split
        · exact ⟨a, rectKey KM a, rfl⟩
        · exact ⟨b0, bk0, rfl⟩
    refine ⟨hk, ⟨?_, ?_⟩, ?_, ?_⟩
    · intro hn
      subst hn
      have h1 : bestStep KM none a = some (a, rectKey KM a) := rfl
      rcases hmems a (rectKey KM a) h1 with hmem | ⟨rfl, _⟩
      · exact List.mem_cons.mpr (Or.inr hmem)
      · exact List.mem_cons.mpr (Or.inl rfl)
    · intro b bk hbk
      subst hbk
      simp only [bestStep] at hmems
      split at hmems
      · rcases hmems a (rectKey KM a) rfl with hmem | ⟨rfl, _⟩
        · exact Or.inl (List.mem_cons.mpr (Or.inr hmem))
        · exact Or.inl (List.mem_cons.mpr (Or.inl rfl))
      · rcases hmems b bk rfl with hmem | heq
        · exact Or.inl (List.mem_cons.mpr (Or.inr hmem))
        · exact Or.inr heq
    · intro x hx
      rcases List.mem_cons.mp hx with rfl | hxs
      · cases acc with
        | none => exact haccb x (rectKey KM x) rfl
        | some p =>
          obtain ⟨b0, bk0⟩ := p
          by_cases hgt : keyGTb (rectKey KM x) bk0 = true
          · have h1 : bestStep KM (some (b0, bk0)) x = some (x, rectKey KM x) := by
              simp only [bestStep, if_pos hgt]
            exact haccb x (rectKey KM x) h1
          · have hgt2 : keyGTb (rectKey KM x) bk0 = false := by
              cases hv : keyGTb (rectKey KM x) bk0
              · rfl
              · exact absurd hv hgt
            have h1 : bestStep KM (some (b0, bk0)) x = some (b0, bk0) := by
              simp only [bestStep, if_neg hgt]
            have h2 : keyGTb bk0 rk = false := haccb b0 bk0 h1
            exact keyGTb_le_trans hgt2 h2
      · exact hbound x hxs
    · intro b bk hbk
      subst hbk
      simp only [bestStep] at haccb
      split at haccb
      · next hgt =>
        have h1 : keyGTb (rectKey KM a) rk = false := haccb a (rectKey KM a) rfl
        cases hv : keyGTb bk rk
        · rfl
        · exfalso
          have h2 : keyLtb bk (rectKey KM a) = true := hgt
          have h3 : keyLtb rk bk = true := hv
          have h4 : keyLtb rk (rectKey KM a) = true := strictOrd_key.trans _ _ _ h3 h2
          rw [show keyGTb (rectKey KM a) rk = keyLtb rk (rectKey KM a) from rfl, h4] at h1
          cases h1
      · exact haccb b bk rfl

theorem best_rectangle_mem_max (KM : KernelMatrix) (l : List Rectangle)
    (r : Rectangle) (h : best_rectangle KM l = some r) :
    r ∈ l ∧ ∀ x ∈ l, keyGTb (rectKey KM x) (rectKey KM r) = false := by
  unfold best_rectangle at h
  obtain ⟨p, hp, hp1⟩ := Option.map_eq_some'.mp h
  obtain ⟨rr, rk⟩ := p
  simp only at hp1
  obtain ⟨hk, ⟨hmemn, _⟩, hbound, _⟩ :=
    bestFold_spec KM l none rr rk (fun b bk hbk => by cases hbk) hp
  rw [← hp1]
  rw [hk] at hbound
  exact ⟨hmemn rfl, hbound⟩

/-- C4: rectangle_profit computes exactly the spec formula
before - after, with before the literal count of the deduplicated covered
set {r ∪ t : r in R, t in T} and after the definition cost plus usage cost;
and best_rectangle selects a member of the candidate list whose
(profit, area, rows, cols) key no other candidate lexicographically
exceeds, deterministically (it is a pure function of the list). -/
theorem C4_profit_and_selection (KM : KernelMatrix) (rect : Rectangle)
    (l : List Rectangle) (r : Rectangle) :
    rectangle_profit KM rect = rectangle_profit_spec KM rect ∧
    (best_rectangle KM l = some r →
      r ∈ l ∧ ∀ x ∈ l, keyGTb (rectKey KM x) (rectKey KM r) = false) := by
  constructor
  · simp only [rectangle_profit, rectangle_profit_spec]
    rw [coveredCubes_eq_product_image]
  · exact fun h => best_rectangle_mem_max KM l r h

/-- The single rectangle of the matrix KMw, used as concrete input. -/
def rectW : Rectangle := ⟨{0}, {0}⟩

/-- Witness for C4 at the concrete matrix KMw and its single candidate. -/
theorem C4_profit_and_selection_witness :
    rectangle_profit KMw rectW = rectangle_profit_spec KMw rectW ∧
    (rectW ∈ [rectW] ∧
      ∀ x ∈ [rectW], keyGTb (rectKey KMw x) (rectKey KMw rectW) = false) :=
  ⟨(C4_profit_and_selection KMw rectW [rectW] rectW).1,
   (C4_profit_and_selection KMw rectW [rectW] rectW).2 (by decide)⟩

/-! ### src/factor.py : rectangle application and fallback extraction -/

/-- Error outcomes of the pipeline (the ValueError / RuntimeError raises in
src/factor.py and src/synthesize.py). -/
inductive SynthErr where
  | noCols
  | noRows
  | coverageMismatch (missingCount : Nat) (sample : List Cube)
  | nameCollision (name : Literal)
deriving DecidableEq

instance {ε α : Type} [DecidableEq ε] [DecidableEq α] :
    DecidableEq (Except ε α) := fun a b =>
  match a, b with
  | .ok x, .ok y =>
    if h : x = y then .isTrue (by rw [h])
    else .isFalse (by intro hc; cases hc; exact h rfl)
  | .error x, .error y =>
    if h : x = y then .isTrue (by rw [h])
    else .isFalse (by intro hc; cases hc; exact h rfl)
  | .ok _, .error _ => .isFalse (by intro hc; cases hc)
  | .error _, .ok _ => .isFalse (by intro hc; cases hc)

/-- Sample of missing cubes reported by strict mode (list(missing)[:10] in
src/factor.py; Python samples in set iteration order, the embedding in the
canonical order). -/
def missingSample (missing : Expr) : List Cube :=
  (msortBy cubeLtb strictOrd_cube missing.val).take 10

/-- Apply one rectangle extraction (apply_rectangle_once in src/factor.py):
build T from the selected columns, the covered region from the selected
rows, fail on an empty column or row set, fail in strict mode when covered
cubes are missing from F (reporting their count and a sample), otherwise
remove the covered cubes present in F and add (co-kernel ∪ new_node) cubes.
The warn flag only controls a printed diagnostic and has no effect on the
returned value. -/
def apply_rectangle_once (F : Expr) (KM : KernelMatrix) (rect : Rectangle)
    (new_node : Literal) (strict : Bool) (warn : Bool) :
    Except SynthErr (Expr × List (Literal × Expr) × Expr) :=
  if rect.cols = ∅ then .error .noCols
  else if rect.rows = ∅ then .error .noRows
  else
    let T := unionCols KM rect
    let covered := coveredCubes KM rect
    let missing := covered \ F
    if strict = true ∧ missing ≠ ∅ then
      .error (.coverageMismatch missing.card (missingSample missing))
    else
      let removed := covered ∩ F
      let newF := (F \ removed) ∪
        rect.rows.image (fun i => rowGet KM i ∪ {new_node})
      .ok (newF, [(new_node, T)], removed)

/-- C3: extraction correctness of the applier in non-strict mode.  When
apply_rectangle_once succeeds, the returned definition list is exactly
{new_node : T} with T the union of the selected kernel columns; every
removed cube is (some selected co-kernel ∪ some cube of T); substituting T
back into the added (co-kernel ∪ new_node) cubes — multiplying each
selected co-kernel by T — rebuilds exactly the theoretical coverage; and
the coverage intersected with F is exactly the removed set. -/
theorem C3_extraction_correctness (F : Expr) (KM : KernelMatrix)
    (rect : Rectangle) (new_node : Literal) (warn : Bool)
    (newF : Expr) (defs : List (Literal × Expr)) (removed : Expr)
    (h : apply_rectangle_once F KM rect new_node false warn =
      .ok (newF, defs, removed)) :
    defs = [(new_node, unionCols KM rect)] ∧
    (∀ c ∈ removed, ∃ i ∈ rect.rows, ∃ t ∈ unionCols KM rect,
      c = rowGet KM i ∪ t) ∧
    rect.rows.sup
      (fun i => multiply_cube_expr (rowGet KM i) (unionCols KM rect)) =
      coveredCubes KM rect ∧
    removed = coveredCubes KM rect ∩ F := by
  unfold apply_rectangle_once at h
  by_cases h1 : rect.cols = ∅
  · rw [if_pos h1] at h
    cases h
  · rw [if_neg h1] at h
    by_cases h2 : rect.rows = ∅
    · rw [if_pos h2] at h
      cases h
    · rw [if_neg h2] at h
      rw [if_neg (by simp)] at h
      simp only [Except.ok.injEq, Prod.mk.injEq] at h
      obtain ⟨hnf, hdefs, hrem⟩ := h
      subst hdefs
      subst hrem
      refine ⟨rfl, ?_, rfl, rfl⟩
      intro c hc
      have hc2 : c ∈ coveredCubes KM rect := (Finset.mem_inter.mp hc).1
      exact mem_coveredCubes.mp hc2

/-- C7: applier error handling.  apply_rectangle_once fails exactly when
the rectangle has no columns, or no rows, or strict mode is on and some
covered cube is absent from F; a strict failure reports the number of
missing cubes and a sample of them; and in non-strict mode (with nonempty
rows and columns) it always succeeds, removing exactly the covered cubes
actually present in F. -/
theorem C7_applier_error_handling (F : Expr) (KM : KernelMatrix)
    (rect : Rectangle) (new_node : Literal) (strict warn : Bool) :
    ((apply_rectangle_once F KM rect new_node strict warn).isOk = false ↔
      rect.cols = ∅ ∨ rect.rows = ∅ ∨
        (strict = true ∧ coveredCubes KM rect \ F ≠ ∅)) ∧
    (rect.cols ≠ ∅ → rect.rows ≠ ∅ → strict = true →
      coveredCubes KM rect \ F ≠ ∅ →
      apply_rectangle_once F KM rect new_node strict warn =
        .error (.coverageMismatch (coveredCubes KM rect \ F).card
          (missingSample (coveredCubes KM rect \ F)))) ∧
    (strict = false → rect.cols ≠ ∅ → rect.rows ≠ ∅ →
      ∃ newF defs, apply_rectangle_once F KM rect new_node strict warn =
        .ok (newF, defs, coveredCubes KM rect ∩ F)) := by
  unfold apply_rectangle_once
  by_cases h1 : rect.cols = ∅
  · rw [if_pos h1]
    refine ⟨⟨fun _ => Or.inl h1, fun _ => rfl⟩, ?_, ?_⟩
    · intro hc; exact absurd h1 hc
    · intro _ hc; exact absurd h1 hc
  · rw [if_neg h1]
    by_cases h2 : rect.rows = ∅
    · rw [if_pos h2]
      refine ⟨⟨fun _ => Or.inr (Or.inl h2), fun _ => rfl⟩, ?_, ?_⟩
      · intro _ hc; exact absurd h2 hc
      · intro _ _ hc; exact absurd h2 hc
    · rw [if_neg h2]
      by_cases h3 : strict = true ∧ coveredCubes KM rect \ F ≠ ∅
      · rw [if_pos h3]
        refine ⟨⟨fun _ => Or.inr (Or.inr h3), fun _ => rfl⟩, ?_, ?_⟩
        · intro _ _ _ _; rfl
        · intro hs _ _
          rw [hs] at h3
          exact absurd h3.1 (by simp)
      · rw [if_neg h3]
        refine ⟨⟨?_, ?_⟩, ?_, ?_⟩
        · intro hfalse
          cases hfalse
        · rintro (hc | hc | hc)
          · exact absurd hc h1
          · exact absurd hc h2
          · exact absurd hc h3
        · intro _ _ hs hm
          exact absurd ⟨hs, hm⟩ h3
        · intro _ _ _
          exact ⟨_, _, rfl⟩

/-- Concrete input for the applier witnesses: F = ab + ac, whose kernel
matrix is KMw with single rectangle rectW. -/
def Fw : Expr := {{"a", "b"}, {"a", "c"}}

/-- Witness for C3 at the concrete application of rectW to Fw. -/
theorem C3_extraction_correctness_witness :
    ([("t1", {{"b"}, {"c"}})] : List (Literal × Expr)) =
      [("t1", unionCols KMw rectW)] ∧
    (∀ c ∈ ({{"a", "b"}, {"a", "c"}} : Expr),
      ∃ i ∈ rectW.rows, ∃ t ∈ unionCols KMw rectW, c = rowGet KMw i ∪ t) ∧
    rectW.rows.sup
      (fun i => multiply_cube_expr (rowGet KMw i) (unionCols KMw rectW)) =
      coveredCubes KMw rectW ∧
    ({{"a", "b"}, {"a", "c"}} : Expr) = coveredCubes KMw rectW ∩ Fw :=
  C3_extraction_correctness Fw KMw rectW "t1" true {{"a", "t1"}}
    [("t1", {{"b"}, {"c"}})] {{"a", "b"}, {"a", "c"}} (by decide)

/-- Witness for C7: the non-strict success case on Fw, and the strict
coverage failure on the empty expression. -/
theorem C7_applier_error_handling_witness :
    (∃ newF defs, apply_rectangle_once Fw KMw rectW "t1" false true =
      .ok (newF, defs, coveredCubes KMw rectW ∩ Fw)) ∧
    apply_rectangle_once (∅ : Expr) KMw rectW "t1" true true =
      .error (.coverageMismatch ((coveredCubes KMw rectW \ (∅ : Expr)).card)
        (missingSample (coveredCubes KMw rectW \ (∅ : Expr)))) :=
  ⟨(C7_applier_error_handling Fw KMw rectW "t1" false true).2.2
      rfl (by decide) (by decide),
   (C7_applier_error_handling (∅ : Expr) KMw rectW "t1" true true).2.1
      (by decide) (by decide) rfl (by decide)⟩

/-- Decimal digit list of n (most significant first), with fuel making the
division recursion structural; n + 1 units of fuel always suffice since
n / 10 < n for n ≥ 10. -/
def natReprAux : Nat → Nat → List Char
  | 0, _ => []
  | fuel + 1, n =>
    if n < 10 then [Nat.digitChar n]
    else natReprAux fuel (n / 10) ++ [Nat.digitChar (n % 10)]

/-- Decimal representation of a natural number, modelling Python string
interpolation of the node id. -/
def natRepr (n : Nat) : String := ⟨natReprAux (n + 1) n⟩

/-- Generated node name: prefix followed by the decimal id
(the f-string node naming in src/factor.py and src/synthesize.py). -/
def mkName (nodePfx : String) (id : Nat) : Literal :=
  nodePfx ++ natRepr id

/-- Loop body of extract_common_cube_once in src/factor.py, iterating over
candidate base cubes in the order Python enumerates the set. -/
def extractCommonGo (F : Expr) : List Cube → Expr × Bool
  | [] => (F, false)
  | base :: rest =>
    let group := F.filter (fun c => c ∩ base ≠ ∅)
    if group.card < 2 then extractCommonGo F rest
    else
      let cc := common_cube group
      if cc = ∅ then extractCommonGo F rest
      else
        let remainder := group.image (fun c => c \ cc)
        ((F \ group) ∪ remainder.image (fun r => cc ∪ r), true)

/-- One common-cube rewrite (extract_common_cube_once in src/factor.py).
Python iterates cubes = list(F): the argument list is that enumeration of
the set, whose underlying expression is its toFinset. -/
def extract_common_cube_once (l : List Cube) : Expr × Bool :=
  if l.toFinset.card < 2 then (l.toFinset, false)
  else extractCommonGo l.toFinset l

/-- Loop body of extract_single_row_node_once in src/factor.py. -/
def extractSingleRowGo (F : Expr) (nodePfx : String) (next_id : Nat) :
    List Cube → Expr × List (Literal × Expr) × Bool × Nat
  | [] => (F, [], false, next_id)
  | base :: rest =>
    let group := F.filter (fun c => c ∩ base ≠ ∅)
    if group.card < 2 then extractSingleRowGo F nodePfx next_id rest
    else
      let cc := common_cube group
      if cc = ∅ then extractSingleRowGo F nodePfx next_id rest
      else
        let remainder := group.image (fun c => c \ cc)
        if remainder.card < 2 then extractSingleRowGo F nodePfx next_id rest
        else
          ((F \ group) ∪ {cc ∪ {mkName nodePfx next_id}},
           [(mkName nodePfx next_id, remainder)], true, next_id + 1)

/-- Node-creating fallback extraction (extract_single_row_node_once in
src/factor.py): first base cube whose sharing group has a nonempty common
cube and at least two distinct remainder cubes wins; the group collapses to
the single cube (common ∪ node) and the node is defined as the remainder
sum. -/
def extract_single_row_node_once (l : List Cube) (nodePfx : String)
    (next_id : Nat) : Expr × List (Literal × Expr) × Bool × Nat :=
  extractSingleRowGo l.toFinset nodePfx next_id l

theorem common_cube_subset {e : Expr} {c : Cube} (hc : c ∈ e) :
    common_cube e ⊆ c := by
  intro x hx
  exact (mem_common_cube.mp hx).2 c hc

theorem extractCommonGo_fst (F : Expr) :
    ∀ l : List Cube, (extractCommonGo F l).1 = F := by
  intro l
  induction l with
  | nil => rfl
  | cons base rest ih =>
    rw [extractCommonGo]
    by_cases h1 : (F.filter (fun c => c ∩ base ≠ ∅)).card < 2
    · rw [if_pos h1]; exact ih
    · rw [if_neg h1]
      by_cases h2 : common_cube (F.filter (fun c => c ∩ base ≠ ∅)) = ∅
      · rw [if_pos h2]; exact ih
      · rw [if_neg h2]
        simp only
        have hgrp : F.filter (fun c => c ∩ base ≠ ∅) ⊆ F := Finset.filter_subset _ _
        have himg :
            ((F.filter (fun c => c ∩ base ≠ ∅)).image
                (fun c => c \ common_cube (F.filter (fun c => c ∩ base ≠ ∅)))).image
              (fun r => common_cube (F.filter (fun c => c ∩ base ≠ ∅)) ∪ r) =
            F.filter (fun c => c ∩ base ≠ ∅) := by
          rw [Finset.image_image]
          apply Finset.ext
          intro c
          rw [Finset.mem_image]
          constructor
          · rintro ⟨c', hc', rfl⟩
            have hsub := common_cube_subset hc'
            simpa [union_sdiff_cancel hsub] using hc'
          · intro hc
            exact ⟨c, hc, union_sdiff_cancel (common_cube_subset hc)⟩
        rw [himg]
        exact Finset.sdiff_union_of_subset hgrp

/-- C10 (implicit): extract_common_cube_once never changes the expression
as a set of cubes, whatever its reported changed flag: the rewritten cubes
(common ∪ (c minus common)) equal the original cubes, the common cube being
a subset of every cube of the group. -/
theorem C10_extract_common_cube_identity (l : List Cube) :
    (extract_common_cube_once l).1 = l.toFinset := by
  unfold extract_common_cube_once
  split
  · rfl
  · exact extractCommonGo_fst l.toFinset l

/-- Iteration order A of the set {ab, ac, de, df}. -/
def orderA : List Cube := [{"a", "b"}, {"a", "c"}, {"d", "e"}, {"d", "f"}]

/-- Iteration order B of the same set. -/
def orderB : List Cube := [{"d", "e"}, {"d", "f"}, {"a", "b"}, {"a", "c"}]

/-- C9: the fallback extractor's result depends on the iteration order of
the set, not only on the set value.  The two lists enumerate the same
expression {ab, ac, de, df}, yet extract_single_row_node_once rewrites it
to (a t1) + de + df under one order and to ab + ac + (d t1) under the
other: the first-fit loop of src/factor.py iterates list(F) without any
sort key, contradicting the determinism the spec asserts. -/
theorem C9_order_dependence :
    orderA.toFinset = orderB.toFinset ∧
    (extract_single_row_node_once orderA "t" 1).1 ≠
      (extract_single_row_node_once orderB "t" 1).1 :=
  ⟨by decide, by decide⟩

/-! ### src/synthesize.py : the synthesis driver -/

/-- History record of one driver event (the history dicts in
src/synthesize.py). -/
inductive HistEntry where
  | singleRow (iter : Nat) (node : Literal) (nodeExprSize : Nat)
  | rectApplied (iter : Nat) (node : Literal) (profit : Int)
      (nrows ncols coveredCount nodeCubes : Nat)
  | defFactored (node : Literal) (extractions : Nat)
deriving DecidableEq

/-- Result of synthesize_by_rectangles (SynthesisResult in
src/synthesize.py). -/
structure SynthesisResult where
  final_expr : Expr
  defs : List (Literal × Expr)
  history : List HistEntry
  next_id : Nat
deriving DecidableEq

/-- Caller options of synthesize_by_rectangles; verbose is omitted since it
only controls printing. -/
structure SynthOptions where
  nodePfx : String
  min_rows : Nat
  min_cols : Nat
  max_rectangles : Nat
  require_positive_profit : Bool
  max_iters : Nat
  factor_defs : Bool
  max_def_depth : Nat

/-- The defaults of the Python signature: prefix t, minimums 1, cap 5000,
positive profit required, 50 iterations, recursive re-factoring up to
depth 10. -/
def defaultOptions : SynthOptions :=
  ⟨"t", 1, 1, 5000, true, 50, true, 10⟩

/-- Keys of the definition table, in insertion order. -/
def defsKeys (defs : List (Literal × Expr)) : List Literal :=
  defs.map Prod.fst

/-- Association lookup in the definition table (Python dict access). -/
def lookupDef : List (Literal × Expr) → Literal → Option Expr
  | [], _ => none
  | (k, v) :: rest, name => if k = name then some v else lookupDef rest name

/-- In-place value replacement for an existing key (Python dict assignment
in the worklist loop); keys and their order are unchanged. -/
def updateDef (defs : List (Literal × Expr)) (name : Literal) (v : Expr) :
    List (Literal × Expr) :=
  defs.map (fun p => if p.1 = name then (name, v) else p)

/-- History entry recorded after a single-row fallback extraction; the
extractor returns exactly one definition, whose name and size are
recorded. -/
def histSingle (it : Nat) (new_defs : List (Literal × Expr)) : HistEntry :=
  match new_defs with
  | [(name, e)] => .singleRow it name e.card
  | _ => .singleRow it "" 0

/-- Main driver loop (the for-loop of synthesize_by_rectangles in
src/synthesize.py), structurally recursive on the remaining iteration
count; it carries the current iteration index only for the history records.
Per iteration: extract kernels (stop when none); build the matrix and
enumerate rectangles; when no rectangle exists, or the best rectangle is
not profitable while positive profit is required, attempt the single-row
fallback (continue on success, stop otherwise); otherwise apply the best
rectangle under a fresh node name, failing on a definition-table name
collision, and stop early when the expression becomes empty.  The fallback
iterates Python's list(F); the embedding passes the canonical
enumeration of F. -/
def mainLoop (opts : SynthOptions) :
    Nat → Nat → Expr → List (Literal × Expr) → List HistEntry → Nat →
    Except SynthErr (Expr × List (Literal × Expr) × List HistEntry × Nat)
  | 0, _, F, defs, hist, nid => .ok (F, defs, hist, nid)
  | iters + 1, it, F, defs, hist, nid =>
    if kernels F = [] then .ok (F, defs, hist, nid)
    else
      let KM := build_kernel_matrix (kernels F)
      let rects := enumerate_closed_rectangles KM opts.min_rows opts.min_cols
        (some opts.max_rectangles)
      if rects = [] then
        match extract_single_row_node_once (sortedCubes F) opts.nodePfx nid with
        | (newF2, new_defs, changed, nid2) =>
          if changed then
            mainLoop opts iters (it + 1) newF2 (defs ++ new_defs)
              (hist ++ [histSingle it new_defs]) nid2
          else .ok (F, defs, hist, nid)
      else
        match best_rectangle KM rects with
        | none => .ok (F, defs, hist, nid)
        | some best =>
          let prof := rectangle_profit KM best
          if opts.require_positive_profit = true ∧ prof ≤ 0 then
            match extract_single_row_node_once (sortedCubes F) opts.nodePfx nid with
            | (newF2, new_defs, changed, nid2) =>
              if changed then
                mainLoop opts iters (it + 1) newF2 (defs ++ new_defs)
                  (hist ++ [histSingle it new_defs]) nid2
              else .ok (F, defs, hist, nid)
          else
            match apply_rectangle_once F KM best (mkName opts.nodePfx nid)
              false true with
            | .error e => .error e
            | .ok (newF, new_defs, covered) =>
              if mkName opts.nodePfx nid ∈ defsKeys defs then
                .error (.nameCollision (mkName opts.nodePfx nid))
              else
                if newF = ∅ then
                  .ok (newF, defs ++ new_defs,
                    hist ++ [.rectApplied it (mkName opts.nodePfx nid) prof
                      best.nrows best.ncols covered.card (unionCols KM best).card],
                    nid + 1)
                else
                  mainLoop opts iters (it + 1) newF (defs ++ new_defs)
                    (hist ++ [.rectApplied it (mkName opts.nodePfx nid) prof
                      best.nrows best.ncols covered.card (unionCols KM best).card])
                    (nid + 1)

/-- Post-loop worklist over node definitions (the factor_defs block of
src/synthesize.py), structurally recursive on the remaining depth budget.
Skipping an already-seen name does not consume depth in Python (continue
before depth += 1), which is exactly dropping the seen prefix of the
worklist before each processing step.  Every worklist name is a table key;
a missing key (unreachable) is skipped. -/
def defsLoop (opts : SynthOptions) :
    Nat → List Literal → Finset Literal → List (Literal × Expr) →
    List HistEntry → Nat →
    Except SynthErr (List (Literal × Expr) × List HistEntry × Nat)
  | 0, _, _, defs, hist, nid => .ok (defs, hist, nid)
  | d + 1, work, seen, defs, hist, nid =>
    match work.dropWhile (fun n => decide (n ∈ seen)) with
    | [] => .ok (defs, hist, nid)
    | name :: rest =>
      match lookupDef defs name with
      | none => defsLoop opts d rest (insert name seen) defs hist nid
      | some subF =>
        match mainLoop opts opts.max_iters 0 subF [] [] nid with
        | .error e => .error e
        | .ok (fexpr, subdefs, subhist, nid2) =>
          match (defsKeys subdefs).find? (fun k => decide (k ∈ defsKeys defs)) with
          | some k => .error (.nameCollision k)
          | none =>
            defsLoop opts d (rest ++ defsKeys subdefs) (insert name seen)
              (updateDef defs name fexpr ++ subdefs)
              (hist ++ (if subhist = [] then []
                else [.defFactored name subhist.length]))
              nid2

/-- Top-level synthesis (synthesize_by_rectangles in src/synthesize.py):
run the main loop, then, when recursive re-factoring is enabled and any
definitions exist, run the worklist pass over the definition table with the
threaded id counter. -/
def synthesize_by_rectangles (F : Expr) (opts : SynthOptions)
    (start_id : Nat) : Except SynthErr SynthesisResult :=
  match mainLoop opts opts.max_iters 0 F [] [] start_id with
  | .error e => .error e
  | .ok (cf, defs, hist, nid) =>
    if opts.factor_defs = true ∧ defs ≠ [] then
      match defsLoop opts opts.max_def_depth (defsKeys defs) ∅ defs hist nid with
      | .error e => .error e
      | .ok (defs2, hist2, nid2) => .ok ⟨cf, defs2, hist2, nid2⟩
    else .ok ⟨cf, defs, hist, nid⟩

/-- Character filter dropping spaces (expression.replace(" ", "") in
src/parser_sop.py, which removes exactly the space characters). -/
def stripSpaces (s : String) : String := ⟨s.data.filter (fun c => c ≠ ' ')⟩

/-- Split a character list on the plus sign (expression.split("+")). -/
def splitPlus : List Char → List (List Char)
  | [] => [[]]
  | c :: cs =>
    let r := splitPlus cs
    if c = '+' then [] :: r
    else
      match r with
      | [] => [[c]]
      | h :: t => (c :: h) :: t

/-- SOP parser (parse_sop in src/parser_sop.py): strip spaces, split on +,
skip empty tokens, and turn each remaining token's characters into the
literals of a cube. -/
def parse_sop (expression : String) : Expr :=
  ((splitPlus (stripSpaces expression).data).filter (fun t => t ≠ [])).foldl
    (fun acc t => insert (t.map Char.toString).toFinset acc) ∅

set_option maxHeartbeats 2000000 in
/-- C8: on the input parsed from ab+cd+ef the driver returns the expression
unchanged with an empty definition table (and an empty history): the only
kernel is the trivial whole-expression kernel, its rectangle has negative
profit, and the common-cube fallback finds no qualifying group. -/
theorem C8_example2_unchanged :
    synthesize_by_rectangles (parse_sop "ab+cd+ef") defaultOptions 1 =
      .ok ⟨parse_sop "ab+cd+ef", [], [], 1⟩ := by decide

/-- Input whose literals collide with the generated node namespace. -/
def collInput : Expr := {{"t1", "a"}, {"t1", "b"}}

set_option maxHeartbeats 4000000 in
/-- C6 counterexample: on the input (t1 a) + (t1 b) the driver generates
the node name t1 — equal to a literal of the input expression — without
any error: generated names are not guaranteed distinct from input
literals. -/
theorem C6_counterexample :
    synthesize_by_rectangles collInput defaultOptions 1 =
      .ok ⟨{{"t1"}}, [("t1", {{"a"}, {"b"}})],
        [HistEntry.singleRow 0 "t1" 2], 2⟩ ∧
    ("t1" ∈ ({"t1", "a"} : Cube) ∧ ({"t1", "a"} : Cube) ∈ collInput) :=
  ⟨by decide, by decide, by decide⟩

/-! ### Injectivity of generated node names -/

def digitVal (c : Char) : Nat := c.toNat - 48

/-- Decimal decoding, left inverse of natReprAux. -/
def fromDigits (l : List Char) : Nat :=
  l.foldl (fun a c => a * 10 + digitVal c) 0

theorem digitVal_digitChar {n : Nat} (h : n < 10) :
    digitVal (Nat.digitChar n) = n := by
  interval_cases n <;> decide

theorem foldl_digits_shift (l : List Char) :
    ∀ a : Nat, l.foldl (fun a c => a * 10 + digitVal c) a =
      a * 10 ^ l.length + fromDigits l := by
  induction l with
  | nil => intro a; simp [fromDigits]
  | cons c cs ih =>
    intro a
    rw [List.foldl_cons]
    rw [ih (a * 10 + digitVal c)]
    unfold fromDigits
    rw [List.foldl_cons]
    rw [ih (0 * 10 + digitVal c)]
    simp only [List.length_cons]
    have hf : List.foldl (fun a c => a * 10 + digitVal c) 0 cs = fromDigits cs := rfl
    rw [hf]
    ring

theorem fromDigits_append_single (l : List Char) (c : Char) :
    fromDigits (l ++ [c]) = fromDigits l * 10 + digitVal c := by
  unfold fromDigits
  rw [List.foldl_append]
  rw [List.foldl_cons, List.foldl_nil]

theorem fromDigits_natReprAux :
    ∀ (fuel n : Nat), n < fuel → fromDigits (natReprAux fuel n) = n := by
  intro fuel
  induction fuel with
  | zero =>
    intro n h
    exact absurd h (Nat.not_lt_zero n)
  | succ f ih =>
    intro n h
    rw [natReprAux]
    by_cases h10 : n < 10
    · rw [if_pos h10]
      unfold fromDigits
      rw [List.foldl_cons, List.foldl_nil]
      rw [digitVal_digitChar h10]
      omega
    · rw [if_neg h10]
      rw [fromDigits_append_single]
      have hdl : n / 10 < f := by
        have h1 : n / 10 < n := Nat.div_lt_self (by omega) (by omega)
        omega
      rw [ih (n / 10) hdl]
      rw [digitVal_digitChar (Nat.mod_lt n (by omega))]
      omega

theorem str_ext {x y : String} (h : x.data = y.data) : x = y := by
  cases x; cases y; exact congrArg String.mk h

theorem str_append_data (x y : String) : (x ++ y).data = x.data ++ y.data := by
  cases x; cases y; rfl

theorem natRepr_injective {a b : Nat} (h : natRepr a = natRepr b) : a = b := by
  have h2 : natReprAux (a + 1) a = natReprAux (b + 1) b :=
    congrArg String.data h
  have h3 := congrArg fromDigits h2
  rw [fromDigits_natReprAux (a + 1) a (by omega),
    fromDigits_natReprAux (b + 1) b (by omega)] at h3
  exact h3

theorem mkName_injective {p : String} {a b : Nat}
    (h : mkName p a = mkName p b) : a = b := by
  unfold mkName at h
  have h2 := congrArg String.data h
  rw [str_append_data, str_append_data] at h2
  have h3 : (natRepr a).data = (natRepr b).data :=
    List.append_cancel_left h2
  exact natRepr_injective (str_ext h3)

/-! ### No-collision invariant of the synthesis driver -/

/-- Invariant of the definition table: keys are pairwise distinct and all of
the form prefix ++ decimal id with id below the current counter. -/
def NamesOK (p : String) (nid : Nat) (defs : List (Literal × Expr)) : Prop :=
  (defsKeys defs).Nodup ∧
  ∀ k ∈ defsKeys defs, ∃ i, i < nid ∧ k = mkName p i

theorem defsKeys_append (d1 d2 : List (Literal × Expr)) :
    defsKeys (d1 ++ d2) = defsKeys d1 ++ defsKeys d2 :=
  List.map_append _ _ _

theorem NamesOK.mono {p : String} {nid nid2 : Nat}
    {defs : List (Literal × Expr)} (h : NamesOK p nid defs)
    (hle : nid ≤ nid2) : NamesOK p nid2 defs := by
  refine ⟨h.1, ?_⟩
  intro k hk
  obtain ⟨i, hi, hk2⟩ := h.2 k hk
  exact ⟨i, lt_of_lt_of_le hi hle, hk2⟩

theorem NamesOK.fresh_not_mem {p : String} {nid : Nat}
    {defs : List (Literal × Expr)} (h : NamesOK p nid defs) :
    mkName p nid ∉ defsKeys defs := by
  intro hmem
  obtain ⟨i, hi, hk⟩ := h.2 _ hmem
  have := mkName_injective hk
  omega

theorem NamesOK.extend {p : String} {nid : Nat}
    {defs : List (Literal × Expr)} (h : NamesOK p nid defs) (e : Expr) :
    NamesOK p (nid + 1) (defs ++ [(mkName p nid, e)]) := by
  constructor
  · rw [defsKeys_append]
    rw [List.nodup_append]
    refine ⟨h.1, List.nodup_singleton _, ?_⟩
    intro a ha hb
    rw [show defsKeys [(mkName p nid, e)] = [mkName p nid] from rfl] at hb
    rw [List.mem_singleton.mp hb] at ha
    exact h.fresh_not_mem ha
  · intro k hk
    rw [defsKeys_append] at hk
    rcases List.mem_append.mp hk with hk1 | hk2
    · obtain ⟨i, hi, hk3⟩ := h.2 k hk1
      exact ⟨i, by omega, hk3⟩
    · rw [show defsKeys [(mkName p nid, e)] = [mkName p nid] from rfl] at hk2
      exact ⟨nid, by omega, List.mem_singleton.mp hk2⟩

theorem NamesOK.union {p : String} {nid nid2 : Nat}
    {defs subdefs : List (Literal × Expr)} (h1 : NamesOK p nid defs)
    (h2 : NamesOK p nid2 subdefs)
    (hge : ∀ k ∈ defsKeys subdefs,
      ∃ i, nid ≤ i ∧ i < nid2 ∧ k = mkName p i)
    (hle : nid ≤ nid2) : NamesOK p nid2 (defs ++ subdefs) := by
  constructor
  · rw [defsKeys_append, List.nodup_append]
    refine ⟨h1.1, h2.1, ?_⟩
    intro a ha hb
    obtain ⟨i, hi, hai⟩ := h1.2 a ha
    obtain ⟨i2, hi2a, hi2b, hai2⟩ := hge a hb
    rw [hai] at hai2
    have := mkName_injective hai2
    omega
  · intro k hk
    rw [defsKeys_append] at hk
    rcases List.mem_append.mp hk with hk1 | hk2
    · obtain ⟨i, hi, hk3⟩ := h1.2 k hk1
      exact ⟨i, by omega, hk3⟩
    · obtain ⟨i, _, hi2, hk3⟩ := hge k hk2
      exact ⟨i, hi2, hk3⟩

theorem defsKeys_updateDef (defs : List (Literal × Expr)) (name : Literal)
    (v : Expr) : defsKeys (updateDef defs name v) = defsKeys defs := by
  induction defs with
  | nil => rfl
  | cons q rest ih =>
    show ((if q.1 = name then (name, v) else q).1) ::
      defsKeys (updateDef rest name v) = q.1 :: defsKeys rest
    rw [ih]
    by_cases hq : q.1 = name
    · rw [if_pos hq, hq]
    · rw [if_neg hq]

/-- The applier never raises a name-collision error (its only failures are
empty row or column sets and strict coverage mismatch). -/
theorem apply_no_collision (F : Expr) (KM : KernelMatrix) (rect : Rectangle)
    (nn : Literal) (strict warn : Bool) (name : Literal) :
    apply_rectangle_once F KM rect nn strict warn ≠
      .error (.nameCollision name) := by
  unfold apply_rectangle_once
  by_cases h1 : rect.cols = ∅
  · rw [if_pos h1]
    intro hc
    injection hc with h2
    cases h2
  · rw [if_neg h1]
    by_cases h2 : rect.rows = ∅
    · rw [if_pos h2]
      intro hc
      injection hc with h3
      cases h3
    · rw [if_neg h2]
      by_cases h3 : strict = true ∧ coveredCubes KM rect \ F ≠ ∅
      · rw [if_pos h3]
        intro hc
        injection hc with h4
        cases h4
      · rw [if_neg h3]
        intro hc
        cases hc

/-- Shape of a successful application: the definition list is the single
entry (new_node, T). -/
theorem apply_ok_shape {F : Expr} {KM : KernelMatrix} {rect : Rectangle}
    {nn : Literal} {strict warn : Bool} {newF : Expr}
    {nd : List (Literal × Expr)} {removed : Expr}
    (h : apply_rectangle_once F KM rect nn strict warn =
      .ok (newF, nd, removed)) :
    nd = [(nn, unionCols KM rect)] := by
  unfold apply_rectangle_once at h
  by_cases h1 : rect.cols = ∅
  · rw [if_pos h1] at h; cases h
  · rw [if_neg h1] at h
    by_cases h2 : rect.rows = ∅
    · rw [if_pos h2] at h; cases h
    · rw [if_neg h2] at h
      by_cases h3 : strict = true ∧ coveredCubes KM rect \ F ≠ ∅
      · rw [if_pos h3] at h; cases h
      · rw [if_neg h3] at h
        simp only [Except.ok.injEq, Prod.mk.injEq] at h
        exact h.2.1.symm

/-- Shape of the single-row fallback result: on success the definition list
is the single fresh node at the current counter and the counter advances by
one; otherwise nothing changes. -/
theorem extractSingleRowGo_shape (F : Expr) (p : String) (nid : Nat) :
    ∀ (l : List Cube) (newF : Expr) (nd : List (Literal × Expr))
      (ch : Bool) (nid2 : Nat),
      extractSingleRowGo F p nid l = (newF, nd, ch, nid2) →
      (ch = true → (∃ rem, nd = [(mkName p nid, rem)]) ∧ nid2 = nid + 1) ∧
      (ch = false → nd = [] ∧ nid2 = nid) := by
  intro l
  induction l with
  | nil =>
    intro newF nd ch nid2 h
    simp only [extractSingleRowGo, Prod.mk.injEq] at h
    obtain ⟨_, h2, h3, h4⟩ := h
    subst h2; subst h3; subst h4
    constructor
    · intro hc
      cases hc
    · intro hc
      exact ⟨rfl, rfl⟩
  | cons base rest ih =>
    intro newF nd ch nid2 h
    rw [extractSingleRowGo] at h
    by_cases h1 : (F.filter (fun c => c ∩ base ≠ ∅)).card < 2
    · rw [if_pos h1] at h
      exact ih newF nd ch nid2 h
    · rw [if_neg h1] at h
      by_cases h2 : common_cube (F.filter (fun c => c ∩ base ≠ ∅)) = ∅
      · rw [if_pos h2] at h
        exact ih newF nd ch nid2 h
      · rw [if_neg h2] at h
        by_cases h3 : ((F.filter (fun c => c ∩ base ≠ ∅)).image
            (fun c => c \ common_cube (F.filter (fun c => c ∩ base ≠ ∅)))).card < 2
        · rw [if_pos h3] at h
          exact ih newF nd ch nid2 h
        · rw [if_neg h3] at h
          simp only [Prod.mk.injEq] at h
          obtain ⟨hF, h4, h5, h6⟩ := h
          constructor
          · intro _
            exact ⟨⟨_, h4.symm⟩, h6.symm⟩
          · intro hc
            rw [← h5] at hc
            cases hc

theorem extract_single_row_shape {l : List Cube} {p : String} {nid : Nat}
    {newF : Expr} {nd : List (Literal × Expr)} {ch : Bool} {nid2 : Nat}
    (h : extract_single_row_node_once l p nid = (newF, nd, ch, nid2)) :
    (ch = true → (∃ rem, nd = [(mkName p nid, rem)]) ∧ nid2 = nid + 1) ∧
    (ch = false → nd = [] ∧ nid2 = nid) :=
  extractSingleRowGo_shape l.toFinset p nid l newF nd ch nid2 h

/-- Soundness package for one driver-loop result: it is never a
name-collision error, and on success the counter is monotone, the table
keeps the NamesOK invariant, and every new key is a fresh generated name in
the consumed id range. -/
def ResOK (p : String) (defs : List (Literal × Expr)) (nid : Nat)
    (r : Except SynthErr
      (Expr × List (Literal × Expr) × List HistEntry × Nat)) : Prop :=
  (∀ name, r ≠ .error (.nameCollision name)) ∧
  (∀ F2 defs2 hist2 nid2, r = .ok (F2, defs2, hist2, nid2) →
    nid ≤ nid2 ∧ NamesOK p nid2 defs2 ∧
    (∀ k ∈ defsKeys defs2, k ∈ defsKeys defs ∨
      ∃ i, nid ≤ i ∧ i < nid2 ∧ k = mkName p i))

theorem ResOK_ok_same (p : String) (defs : List (Literal × Expr)) (nid : Nat)
    (F : Expr) (hist : List HistEntry) (h : NamesOK p nid defs) :
    ResOK p defs nid (.ok (F, defs, hist, nid)) := by
  constructor
  · intro name hc
    exact Except.noConfusion hc
  · intro F2 defs2 hist2 nid2 hok
    simp only [Except.ok.injEq, Prod.mk.injEq] at hok
    obtain ⟨_, hd, _, hn⟩ := hok
    rw [← hd, ← hn]
    exact ⟨le_refl nid, h, fun k hk => Or.inl hk⟩

theorem ResOK_step {p : String} {defs defs1 : List (Literal × Expr)}
    {nid nid1 : Nat}
    {r : Except SynthErr (Expr × List (Literal × Expr) × List HistEntry × Nat)}
    (hsub : ResOK p defs1 nid1 r)
    (hkeys : ∀ k ∈ defsKeys defs1, k ∈ defsKeys defs ∨
      ∃ i, nid ≤ i ∧ i < nid1 ∧ k = mkName p i)
    (hle : nid ≤ nid1) : ResOK p defs nid r := by
  constructor
  · exact hsub.1
  · intro F2 defs2 hist2 nid2 hok
    obtain ⟨h1, h2, h3⟩ := hsub.2 F2 defs2 hist2 nid2 hok
    refine ⟨le_trans hle h1, h2, ?_⟩
    intro k hk
    rcases h3 k hk with hk2 | ⟨i, hi1, hi2, hi3⟩
    · rcases hkeys k hk2 with hk3 | ⟨i, hi1, hi2, hi3⟩
      · exact Or.inl hk3
      · exact Or.inr ⟨i, hi1, lt_of_lt_of_le hi2 h1, hi3⟩
    · exact Or.inr ⟨i, le_trans hle hi1, hi2, hi3⟩

theorem keys_extend_track (p : String) (nid : Nat)
    (defs : List (Literal × Expr)) (rem : Expr) :
    ∀ k ∈ defsKeys (defs ++ [(mkName p nid, rem)]),
      k ∈ defsKeys defs ∨
      ∃ i, nid ≤ i ∧ i < nid + 1 ∧ k = mkName p i := by
  intro k hk
  rw [defsKeys_append] at hk
  rcases List.mem_append.mp hk with h1 | h2
  · exact Or.inl h1
  · refine Or.inr ⟨nid, le_refl nid, by omega, ?_⟩
    exact List.mem_singleton.mp h2

/-- The common-cube fallback branch of the driver loop preserves the
no-collision package. -/
theorem fallbackBranch_resOK (opts : SynthOptions) (n it nid : Nat)
    (F newF2 : Expr) (defs nd : List (Literal × Expr))
    (hist : List HistEntry) (ch : Bool) (nid2 : Nat)
    (hE : extract_single_row_node_once (sortedCubes F) opts.nodePfx nid =
      (newF2, nd, ch, nid2))
    (h : NamesOK opts.nodePfx nid defs)
    (ihm : ∀ (it : Nat) (F : Expr) (defs : List (Literal × Expr))
      (hist : List HistEntry) (nid : Nat),
      NamesOK opts.nodePfx nid defs →
      ResOK opts.nodePfx defs nid (mainLoop opts n it F defs hist nid)) :
    ResOK opts.nodePfx defs nid
      (if ch = true then
        mainLoop opts n (it + 1) newF2 (defs ++ nd)
          (hist ++ [histSingle it nd]) nid2
       else .ok (F, defs, hist, nid)) := by
  cases ch with
  | false =>
    rw [if_neg (by simp)]
    exact ResOK_ok_same _ _ _ _ _ h
  | true =>
    rw [if_pos rfl]
    obtain ⟨hch, _⟩ := extract_single_row_shape hE
    obtain ⟨⟨rem, hnd⟩, hnid2⟩ := hch rfl
    subst hnd
    subst hnid2
    exact ResOK_step
      (ihm (it + 1) newF2 (defs ++ [(mkName opts.nodePfx nid, rem)])
        (hist ++ [histSingle it [(mkName opts.nodePfx nid, rem)]])
        (nid + 1) (h.extend rem))
      (keys_extend_track opts.nodePfx nid defs rem)
      (by omega)

theorem mainLoop_names (opts : SynthOptions) :
    ∀ (iters it : Nat) (F : Expr) (defs : List (Literal × Expr))
      (hist : List HistEntry) (nid : Nat),
      NamesOK opts.nodePfx nid defs →
      ResOK opts.nodePfx defs nid
        (mainLoop opts iters it F defs hist nid) := by
  intro iters
  induction iters with
  | zero =>
    intro it F defs hist nid h
    exact ResOK_ok_same _ _ _ _ _ h
  | succ n ih =>
    intro it F defs hist nid h
    rw [mainLoop]
    by_cases hk : kernels F = []
    · rw [if_pos hk]
      exact ResOK_ok_same _ _ _ _ _ h
    · rw [if_neg hk]
      dsimp only
      by_cases hr : enumerate_closed_rectangles (build_kernel_matrix (kernels F))
          opts.min_rows opts.min_cols (some opts.max_rectangles) = []
      · rw [if_pos hr]
        rcases hE : extract_single_row_node_once (sortedCubes F)
            opts.nodePfx nid with ⟨newF2, nd, ch, nid2⟩
        dsimp only
        exact fallbackBranch_resOK opts n it nid F newF2 defs nd hist ch nid2 hE h ih
      · rw [if_neg hr]
        cases hB : best_rectangle (build_kernel_matrix (kernels F))
            (enumerate_closed_rectangles (build_kernel_matrix (kernels F))
              opts.min_rows opts.min_cols (some opts.max_rectangles)) with
        | none =>
          exact ResOK_ok_same _ _ _ _ _ h
        | some best =>
          dsimp only
          by_cases hp : opts.require_positive_profit = true ∧
              rectangle_profit (build_kernel_matrix (kernels F)) best ≤ 0
          · rw [if_pos hp]
            rcases hE : extract_single_row_node_once (sortedCubes F)
                opts.nodePfx nid with ⟨newF2, nd, ch, nid2⟩
            dsimp only
            exact fallbackBranch_resOK opts n it nid F newF2 defs nd hist ch nid2 hE h ih
          · rw [if_neg hp]
            cases hA : apply_rectangle_once F (build_kernel_matrix (kernels F))
                best (mkName opts.nodePfx nid) false true with
            | error e =>
              dsimp only
              constructor
              · intro name hc
                injection hc with he
                rw [he] at hA
                exact apply_no_collision F _ best (mkName opts.nodePfx nid)
                  false true name hA
              · intro F2 defs2 hist2 nid2 hok
                exact Except.noConfusion hok
            | ok val =>
              obtain ⟨newF, nd, cov⟩ := val
              dsimp only
              rw [if_neg h.fresh_not_mem]
              have hnd : nd = [(mkName opts.nodePfx nid,
                  unionCols (build_kernel_matrix (kernels F)) best)] :=
                apply_ok_shape hA
              subst hnd
              by_cases hFe : newF = ∅
              · rw [if_pos hFe]
                constructor
                · intro name hc
                  exact Except.noConfusion hc
                · intro F2 defs2 hist2 nid2 hok
                  simp only [Except.ok.injEq, Prod.mk.injEq] at hok
                  obtain ⟨_, hd, _, hn⟩ := hok
                  rw [← hd, ← hn]
                  refine ⟨by omega, h.extend _, ?_⟩
                  exact keys_extend_track opts.nodePfx nid defs _
              · rw [if_neg hFe]
                exact ResOK_step
                  (ih (it + 1) newF
                    (defs ++ [(mkName opts.nodePfx nid,
                      unionCols (build_kernel_matrix (kernels F)) best)])
                    (hist ++ [.rectApplied it (mkName opts.nodePfx nid)
                      (rectangle_profit (build_kernel_matrix (kernels F)) best)
                      best.nrows best.ncols cov.card
                      (unionCols (build_kernel_matrix (kernels F)) best).card])
                    (nid + 1) (h.extend _))
                  (keys_extend_track opts.nodePfx nid defs _)
                  (by omega)

/-- Soundness package for a worklist-pass result. -/
def DResOK (p : String) (nid : Nat)
    (r : Except SynthErr (List (Literal × Expr) × List HistEntry × Nat)) :
    Prop :=
  (∀ name, r ≠ .error (.nameCollision name)) ∧
  (∀ defs2 hist2 nid2, r = .ok (defs2, hist2, nid2) →
    nid ≤ nid2 ∧ NamesOK p nid2 defs2)

theorem namesOK_nil (p : String) (nid : Nat) : NamesOK p nid [] := by
  constructor
  · exact List.nodup_nil
  · intro k hk
    cases hk

theorem DResOK_ok_same (p : String) (nid : Nat)
    (defs : List (Literal × Expr)) (hist : List HistEntry)
    (h : NamesOK p nid defs) : DResOK p nid (.ok (defs, hist, nid)) := by
  constructor
  · intro name hc
    exact Except.noConfusion hc
  · intro defs2 hist2 nid2 hok
    simp only [Except.ok.injEq, Prod.mk.injEq] at hok
    obtain ⟨hd, _, hn⟩ := hok
    rw [← hd, ← hn]
    exact ⟨le_refl nid, h⟩

theorem DResOK_mono {p : String} {nid nid2 : Nat}
    {r : Except SynthErr (List (Literal × Expr) × List HistEntry × Nat)}
    (hle : nid ≤ nid2) (h : DResOK p nid2 r) : DResOK p nid r := by
  constructor
  · exact h.1
  · intro defs2 hist2 nid3 hok
    obtain ⟨h1, h2⟩ := h.2 defs2 hist2 nid3 hok
    exact ⟨le_trans hle h1, h2⟩

theorem updateDef_namesOK {p : String} {nid : Nat}
    {defs : List (Literal × Expr)} (h : NamesOK p nid defs)
    (name : Literal) (v : Expr) : NamesOK p nid (updateDef defs name v) := by
  constructor
  · rw [defsKeys_updateDef]
    exact h.1
  · rw [defsKeys_updateDef]
    exact h.2

theorem defsLoop_names (opts : SynthOptions) :
    ∀ (d : Nat) (work : List Literal) (seen : Finset Literal)
      (defs : List (Literal × Expr)) (hist : List HistEntry) (nid : Nat),
      NamesOK opts.nodePfx nid defs →
      DResOK opts.nodePfx nid (defsLoop opts d work seen defs hist nid) := by
  intro d
  induction d with
  | zero =>
    intro work seen defs hist nid h
    exact DResOK_ok_same _ _ _ _ h
  | succ n ih =>
    intro work seen defs hist nid h
    rw [defsLoop]
    cases hD : work.dropWhile (fun n => decide (n ∈ seen)) with
    | nil =>
      exact DResOK_ok_same _ _ _ _ h
    | cons name rest =>
      dsimp only
      cases hL : lookupDef defs name with
      | none =>
        exact ih rest (insert name seen) defs hist nid h
      | some subF =>
        dsimp only
        cases hM : mainLoop opts opts.max_iters 0 subF [] [] nid with
        | error e =>
          dsimp only
          constructor
          · intro nm hc
            injection hc with he
            rw [he] at hM
            exact (mainLoop_names opts opts.max_iters 0 subF [] [] nid
              (namesOK_nil _ _)).1 nm hM
          · intro defs2 hist2 nid2 hok
            exact Except.noConfusion hok
        | ok val =>
          obtain ⟨fexpr, subdefs, subhist, nid2⟩ := val
          dsimp only
          obtain ⟨hle, hsubOK, hkeys⟩ :=
            (mainLoop_names opts opts.max_iters 0 subF [] [] nid
              (namesOK_nil _ _)).2 fexpr subdefs subhist nid2 hM
          have hkeys2 : ∀ k ∈ defsKeys subdefs,
              ∃ i, nid ≤ i ∧ i < nid2 ∧ k = mkName opts.nodePfx i := by
            intro k hk
            rcases hkeys k hk with hk2 | hk2
            · cases hk2
            · exact hk2
          have hfind : (defsKeys subdefs).find?
              (fun k => decide (k ∈ defsKeys defs)) = none := by
            apply List.find?_eq_none.mpr
            intro k hk
            simp only [decide_eq_true_eq]
            intro hmem
            obtain ⟨i, hi1, hi2, hi3⟩ := hkeys2 k hk
            obtain ⟨j, hj1, hj2⟩ := h.2 k hmem
            rw [hi3] at hj2
            have := mkName_injective hj2
            omega
          rw [hfind]
          have hnew : NamesOK opts.nodePfx nid2
              (updateDef defs name fexpr ++ subdefs) :=
            NamesOK.union (updateDef_namesOK h name fexpr) hsubOK hkeys2 hle
          exact DResOK_mono hle
            (ih (rest ++ defsKeys subdefs) (insert name seen)
              (updateDef defs name fexpr ++ subdefs)
              (hist ++ (if subhist = [] then []
                else [.defFactored name subhist.length]))
              nid2 hnew)

/-- C6 (amended): in one full synthesize_by_rectangles call with recursive
re-factoring, the NodeNameCollision error never occurs — the id counter is
threaded through every call, including the worklist recursion — and on
success the generated node names (the keys of the definition table) are
pairwise distinct, each of the form prefix ++ decimal id.  (Distinctness
from the input expression's literals does NOT hold: see the
counterexample.) -/
theorem C6_no_collisions (F : Expr) (opts : SynthOptions) (start_id : Nat) :
    (∀ name, synthesize_by_rectangles F opts start_id ≠
      .error (.nameCollision name)) ∧
    (∀ r, synthesize_by_rectangles F opts start_id = .ok r →
      (defsKeys r.defs).Nodup ∧
      ∀ k ∈ defsKeys r.defs, ∃ i, k = mkName opts.nodePfx i) := by
  unfold synthesize_by_rectangles
  cases hM : mainLoop opts opts.max_iters 0 F [] [] start_id with
  | error e =>
    constructor
    · intro name hc
      injection hc with he
      rw [he] at hM
      exact (mainLoop_names opts opts.max_iters 0 F [] [] start_id
        (namesOK_nil _ _)).1 name hM
    · intro r hok
      exact Except.noConfusion hok
  | ok val =>
    obtain ⟨cf, defs, hist, nid⟩ := val
    dsimp only
    obtain ⟨hle, hOK, _⟩ :=
      (mainLoop_names opts opts.max_iters 0 F [] [] start_id
        (namesOK_nil _ _)).2 cf defs hist nid hM
    by_cases hfd : opts.factor_defs = true ∧ defs ≠ []
    · rw [if_pos hfd]
      cases hDL : defsLoop opts opts.max_def_depth (defsKeys defs) ∅ defs hist nid with
      | error e =>
        constructor
        · intro name hc
          injection hc with he
          rw [he] at hDL
          exact (defsLoop_names opts opts.max_def_depth (defsKeys defs) ∅
            defs hist nid hOK).1 name hDL
        · intro r hok
          exact Except.noConfusion hok
      | ok val2 =>
        obtain ⟨defs2, hist2, nid2⟩ := val2
        dsimp only
        obtain ⟨_, hOK2⟩ :=
          (defsLoop_names opts opts.max_def_depth (defsKeys defs) ∅
            defs hist nid hOK).2 defs2 hist2 nid2 hDL
        constructor
        · intro name hc
          exact Except.noConfusion hc
        · intro r hok
          injection hok with hr
          rw [← hr]
          refine ⟨hOK2.1, ?_⟩
          intro k hk
          obtain ⟨i, _, hki⟩ := hOK2.2 k hk
          exact ⟨i, hki⟩
    · rw [if_neg hfd]
      constructor
      · intro name hc
        exact Except.noConfusion hc
      · intro r hok
        injection hok with hr
        rw [← hr]
        refine ⟨hOK.1, ?_⟩
        intro k hk
        obtain ⟨i, _, hki⟩ := hOK.2 k hk
        exact ⟨i, hki⟩

set_option maxHeartbeats 4000000 in
/-- Witness for C6 on the collision-demonstrating input: the run returns ok
(never a NodeNameCollision error) and its single generated name t1 is a
well-formed fresh name; distinctness of keys is the trivial Nodup of one
element. -/
theorem C6_no_collisions_witness :
    (∀ name, synthesize_by_rectangles collInput defaultOptions 1 ≠
      .error (.nameCollision name)) ∧
    ((defsKeys (SynthesisResult.mk {{"t1"}} [("t1", {{"a"}, {"b"}})]
        [HistEntry.singleRow 0 "t1" 2] 2).defs).Nodup ∧
      ∀ k ∈ defsKeys (SynthesisResult.mk {{"t1"}} [("t1", {{"a"}, {"b"}})]
        [HistEntry.singleRow 0 "t1" 2] 2).defs,
        ∃ i, k = mkName defaultOptions.nodePfx i) :=
  ⟨(C6_no_collisions collInput defaultOptions 1).1,
   (C6_no_collisions collInput defaultOptions 1).2
     (SynthesisResult.mk {{"t1"}} [("t1", {{"a"}, {"b"}})]
       [HistEntry.singleRow 0 "t1" 2] 2) (by decide)⟩
